import Mathlib

/-!
# ParallelRelaxation: partitioning, stencil kernel, exchange and convergence

A shallow embedding of the two realizations of the relaxation solver:

* `MPI`   : `OpenMPI-Version/main.c` (message passing, `distributeWork`, `run`);
* `POSIX` : `POSIX-Version/main.c` (threads and barriers, `solve`, `threadMain`).

Modelling conventions.

* C `int` values that the program keeps non-negative (sizes, indices, counts) are natural
  numbers; no arithmetic of the program is taken modulo a word size, so every statement is about
  runs in which `arraySize * arraySize` fits an `int`.
* C `double` values are rational numbers: `+`, `-`, `/ 4.0` and `fabs` are exact.
* A buffer (`double *`) is a function from the index to the stored value; writing a cell is
  `Function.update`. What a fresh `malloc` holds is an explicit parameter.
-/

/-- The content of a `double *` buffer, by index. -/
abbrev Buf := Nat → ℚ

/-- A block copy of `len` cells from `src + srcOff` to `dst + dstOff`; the transfer made by
`MPI_Send`/`MPI_Recv` and, per contributing rank, by `MPI_Gatherv`. -/
def copyInto (dst : Buf) (dstOff : Nat) (src : Buf) (srcOff len : Nat) : Buf :=
  fun j => if dstOff ≤ j ∧ j < dstOff + len then src (srcOff + (j - dstOff)) else dst j

namespace MPI

/-- The loop of `distributeWork` (lines 68-82): `k` processors remain, `r` is the remainder
still to hand out and `startPos` the running start. Each entry is
`(chunkSizes[i], startPositions[i])`. -/
def distributeLoop (tasksPerProcessor : Nat) : Nat → Nat → Nat → List (Nat × Nat)
  | 0, _, _ => []
  | k + 1, r, startPos =>
    let numberOfTasks := if r > 0 then tasksPerProcessor + 1 else tasksPerProcessor
    let r1 := if r > 0 then r - 1 else r
    (numberOfTasks, startPos) :: distributeLoop tasksPerProcessor k r1 (startPos + numberOfTasks)

/-- The function `distributeWork`: returns `(chunkSizes, startPositions)`. -/
def distributeWork (arraySize numberOfProcessors : Nat) : List Nat × List Nat :=
  let tasksPerProcessor := arraySize * arraySize / numberOfProcessors
  let r := (arraySize * arraySize) % numberOfProcessors
  let out := distributeLoop tasksPerProcessor numberOfProcessors r 0
  (out.map Prod.fst, out.map Prod.snd)

/-- Read `chunkSizes[i]`. -/
def chunkSize (arraySize numberOfProcessors i : Nat) : Nat :=
  (distributeWork arraySize numberOfProcessors).1.getD i 0

/-- Read `startPositions[i]`. -/
def startPosition (arraySize numberOfProcessors i : Nat) : Nat :=
  (distributeWork arraySize numberOfProcessors).2.getD i 0

/-- The function `accessUnwrappedArray` (lines 40-42). -/
def accessUnwrappedArray (src : Buf) (size i j : Nat) : ℚ :=
  src (i * size + j)

/-- What one rank holds inside `run`: its `result` buffer, its `subResults` buffer and its
`changed` variable. -/
structure Proc where
  result : Buf
  subResults : Buf
  changed : Bool

/-- One pass of the body of the `for` loop at lines 154-175, on `(subResults, changed)`. -/
def kernelStep (arraySize : Nat) (precision : ℚ) (result : Buf) (startPos : Nat)
    (st : Buf × Bool) (i : Nat) : Buf × Bool :=
  let row := (startPos + i) / arraySize
  let col := (startPos + i) % arraySize
  let onEdge := row == 0 || row == arraySize - 1 || col == 0 || col == arraySize - 1
  if onEdge then
    (Function.update st.1 i (result (startPos + i)), st.2)
  else
    let adjacentSum :=
      accessUnwrappedArray result arraySize (row - 1) col +
      accessUnwrappedArray result arraySize (row + 1) col +
      accessUnwrappedArray result arraySize row (col - 1) +
      accessUnwrappedArray result arraySize row (col + 1)
    let subResults := Function.update st.1 i (adjacentSum / 4)
    (subResults, st.2 || decide (|subResults i - result (startPos + i)| > precision))

/-- Lines 153-175 for one rank: `changed = false`, then the kernel loop. The loop runs for
`0 <= i <= endPos - startPos` with `endPos = startPos + chunkSizes[rank] - 1`, that is for the
`count = chunkSizes[rank]` values `i < count`. -/
def compute (arraySize : Nat) (precision : ℚ) (startPos count : Nat) (p : Proc) : Proc :=
  let out := (List.range count).foldl
    (kernelStep arraySize precision p.result startPos) (p.subResults, false)
  { result := p.result, subResults := out.1, changed := out.2 }

/-- The first row rank 0 sends to processor `i` (line 130). -/
def sendStartingRow (arraySize numberOfProcessors i : Nat) : Nat :=
  max 0 (startPosition arraySize numberOfProcessors i / arraySize - 1)

/-- The last row rank 0 sends to processor `i` (line 131). -/
def sendEndRow (arraySize numberOfProcessors i : Nat) : Nat :=
  min (arraySize - 1)
    ((startPosition arraySize numberOfProcessors i + chunkSize arraySize numberOfProcessors i - 1)
      / arraySize + 1)

/-- The first row processor `rank` receives (line 143, with `startPos` of line 102). -/
def recvStartingRow (arraySize numberOfProcessors rank : Nat) : Nat :=
  let startPos := startPosition arraySize numberOfProcessors rank
  max 0 (startPos / arraySize - 1)

/-- The last row processor `rank` receives (line 144, with `endPos` of line 103). -/
def recvEndRow (arraySize numberOfProcessors rank : Nat) : Nat :=
  let startPos := startPosition arraySize numberOfProcessors rank
  let endPos := startPos + chunkSize arraySize numberOfProcessors rank - 1
  min (arraySize - 1) (endPos / arraySize + 1)

/-- Lines 118-150: rank 0 sends to every other processor the rows it computed for it, and the
processor stores the message at the first row it computed for itself. -/
def exchange (arraySize numberOfProcessors : Nat) (w : Nat → Proc) : Nat → Proc :=
  fun rank =>
    if rank = 0 ∨ numberOfProcessors ≤ rank then w rank
    else
      let startingRow := sendStartingRow arraySize numberOfProcessors rank
      let endRow := sendEndRow arraySize numberOfProcessors rank
      let ownStartingRow := recvStartingRow arraySize numberOfProcessors rank
      { w rank with
        result := copyInto (w rank).result (ownStartingRow * arraySize)
          (w 0).result (startingRow * arraySize) ((endRow - startingRow + 1) * arraySize) }

/-- Lines 153-175 on every rank, each over its own `startPos` and chunk. -/
def computeAll (arraySize numberOfProcessors : Nat) (precision : ℚ) (w : Nat → Proc) :
    Nat → Proc :=
  fun rank =>
    if rank < numberOfProcessors then
      compute arraySize precision (startPosition arraySize numberOfProcessors rank)
        (chunkSize arraySize numberOfProcessors rank) (w rank)
    else w rank

/-- The call `MPI_Gatherv` of line 182 at the root: the `recvcounts[p]` cells of every rank's
send buffer are stored at `displs[p]` of the receive buffer. -/
def gatherv (numberOfProcessors : Nat) (w : Nat → Proc) (recvcounts displs : Nat → Nat)
    (recvbuf : Buf) : Buf :=
  (List.range numberOfProcessors).foldl
    (fun buf p => copyInto buf (displs p) (w p).subResults 0 (recvcounts p)) recvbuf

/-- The call `MPI_Allreduce` of line 187 with `MPI_LOR`. -/
def allreduceLor (numberOfProcessors : Nat) (w : Nat → Proc) : Bool :=
  (List.range numberOfProcessors).any (fun p => (w p).changed)

/-- One pass of the body of the `do ... while` loop of `run` (lines 116-189) on all ranks. -/
def generation (arraySize numberOfProcessors : Nat) (precision : ℚ) (w : Nat → Proc) :
    Nat → Proc :=
  let w1 := exchange arraySize numberOfProcessors w
  let w2 := computeAll arraySize numberOfProcessors precision w1
  let gathered := gatherv numberOfProcessors w2 (chunkSize arraySize numberOfProcessors)
    (startPosition arraySize numberOfProcessors) (w2 0).result
  let changed := allreduceLor numberOfProcessors w2
  fun rank =>
    if rank < numberOfProcessors then
      { result := if rank = 0 then gathered else (w2 rank).result
        subResults := (w2 rank).subResults
        changed := changed }
    else w rank

/-- The states after each generation that the `do ... while (changed)` loop performs, at most
`fuel` of them. -/
def generations (arraySize numberOfProcessors : Nat) (precision : ℚ) :
    Nat → (Nat → Proc) → List (Nat → Proc)
  | 0, _ => []
  | fuel + 1, w =>
    let w1 := generation arraySize numberOfProcessors precision w
    w1 :: (if (w1 0).changed then generations arraySize numberOfProcessors precision fuel w1
      else [])

/-- The loop `do ... while (changed)` of `run`: the state at loop exit and the number of
generations performed, or `none` when `fuel` generations were not enough. -/
def run (arraySize numberOfProcessors : Nat) (precision : ℚ) :
    Nat → (Nat → Proc) → Option ((Nat → Proc) × Nat)
  | 0, _ => none
  | fuel + 1, w =>
    let w1 := generation arraySize numberOfProcessors precision w
    if (w1 0).changed then
      (run arraySize numberOfProcessors precision fuel w1).map (fun r => (r.1, r.2 + 1))
    else some (w1, 1)

end MPI

namespace POSIX

/-- The thread-creation loop of `solve` (lines 119-140), kept to the two fields it computes:
each entry is `(elementsToCompute, startPos)` of one `threadArgs[i]`. -/
def threadArgsLoop (elementsEachThread : Nat) : Nat → Nat → Nat → List (Nat × Nat)
  | 0, _, _ => []
  | k + 1, remainderElements, currentPos =>
    let elementsToCompute :=
      if remainderElements > 0 then elementsEachThread + 1 else elementsEachThread
    let remainder1 := if remainderElements > 0 then remainderElements - 1 else remainderElements
    (elementsToCompute, currentPos) ::
      threadArgsLoop elementsEachThread k remainder1 (currentPos + elementsToCompute)

/-- The `threadArgs` array that `solve` builds, as `(elementsToCompute, startPos)` pairs. -/
def threadArgs (size threadCount : Nat) : List (Nat × Nat) :=
  let elementsEachThread := (size * size) / threadCount
  let remainderElements := (size * size) % threadCount
  threadArgsLoop elementsEachThread threadCount remainderElements 0

/-- Read `threadArgs[i].elementsToCompute`. -/
def elementsToCompute (size threadCount i : Nat) : Nat :=
  ((threadArgs size threadCount).map Prod.fst).getD i 0

/-- Read `threadArgs[i].startPos`. -/
def startPos (size threadCount i : Nat) : Nat :=
  ((threadArgs size threadCount).map Prod.snd).getD i 0

/-- One pass of the body of the `for` loop of `threadMain` (lines 58-73) on the shared
`(*resultArray, changed)`. -/
def threadStep (arrayWidth arrayHeight : Nat) (precision : ℚ) (currentStartArray : Buf)
    (st : Buf × Bool) (i : Nat) : Buf × Bool :=
  let edge := decide (i < arrayWidth) || decide (i ≥ arrayWidth * (arrayHeight - 1)) ||
    i % arrayWidth == 0 || i % arrayWidth == arrayWidth - 1
  if edge then
    (Function.update st.1 i (currentStartArray i), st.2)
  else
    let total := currentStartArray (i - arrayWidth) + currentStartArray (i + arrayWidth) +
      currentStartArray (i - 1) + currentStartArray (i + 1)
    let currentResultArray := Function.update st.1 i (total / 4)
    (currentResultArray,
      if currentResultArray i - currentStartArray i ≥ precision then true else st.2)

/-- The `for` loop of `threadMain` (lines 58-73) of one thread:
`i = startPos, ..., startPos + elementsToCompute - 1`. -/
def threadPass (arrayWidth arrayHeight : Nat) (precision : ℚ) (currentStartArray : Buf)
    (startPos elementsToCompute : Nat) (shared : Buf × Bool) : Buf × Bool :=
  (List.range elementsToCompute).foldl
    (fun st k => threadStep arrayWidth arrayHeight precision currentStartArray st (startPos + k))
    shared

/-- One generation of `solve` (lines 147-162): `resultArray` is a fresh buffer holding `fresh`,
`changed = false`, every thread makes its pass (threads in index order), and `resultArray` is
the next `startArray`. Returns `(startArray, changed)`. -/
def generation (size threadCount : Nat) (precision : ℚ) (fresh startArray : Buf) :
    Buf × Bool :=
  (List.range threadCount).foldl
    (fun shared t => threadPass size size precision startArray (startPos size threadCount t)
      (elementsToCompute size threadCount t) shared)
    (fresh, false)

/-- The `(startArray, changed)` after each generation that the `do ... while (changed)` loop of
`solve` performs, at most `fuel` of them; `alloc k` is what the `k`-th `malloc` of the loop
returns. -/
def generations (size threadCount : Nat) (precision : ℚ) :
    Nat → (Nat → Buf) → Buf → List (Buf × Bool)
  | 0, _, _ => []
  | fuel + 1, alloc, startArray =>
    let out := generation size threadCount precision (alloc 0) startArray
    out :: (if out.2 then
      generations size threadCount precision fuel (fun k => alloc (k + 1)) out.1 else [])

/-- The loop `do ... while (changed)` of `solve` (lines 144-176): the final `startArray` and the
number of generations performed, or `none` when `fuel` generations were not enough. -/
def solve (size threadCount : Nat) (precision : ℚ) :
    Nat → (Nat → Buf) → Buf → Option (Buf × Nat)
  | 0, _, _ => none
  | fuel + 1, alloc, startArray =>
    let out := generation size threadCount precision (alloc 0) startArray
    if out.2 then
      (solve size threadCount precision fuel (fun k => alloc (k + 1)) out.1).map
        (fun r => (r.1, r.2 + 1))
    else some (out.1, 1)

end POSIX

/-! ## Properties stated about the partition -/

/-- A list of `W` `(start, count)` assignments over `total` cells, read through `start` and
`count`, is a complete balanced partition: it begins at 0, each assignment begins where the
previous one ends, no cell lies in two assignments, the counts add up to `total`, and two counts
differ by at most one. -/
def CompletePartition (total W : Nat) (start count : Nat → Nat) : Prop :=
  start 0 = 0 ∧
  (∀ i, i + 1 < W → start (i + 1) = start i + count i) ∧
  (∀ i j, i < W → j < W → i ≠ j →
    ∀ x, ¬ ((start i ≤ x ∧ x < start i + count i) ∧ (start j ≤ x ∧ x < start j + count j))) ∧
  ((List.range W).map count).sum = total ∧
  (∀ i j, i < W → j < W → count i ≤ count j + 1)

/-! ## The update rule as the specification words it -/

namespace Spec

/-- Cell `i` of an `N × N` grid is an edge cell: its row `i / N` or its column `i % N` is the
first or the last one. -/
def IsEdge (N i : Nat) : Prop :=
  i / N = 0 ∨ i / N = N - 1 ∨ i % N = 0 ∨ i % N = N - 1

instance (N i : Nat) : Decidable (IsEdge N i) := by
  unfold IsEdge; exact inferInstance

/-- The next value of cell `i`: the cell itself on the edge, else the mean of its four
neighbours. -/
def stencil (N : Nat) (current : Buf) (i : Nat) : ℚ :=
  if IsEdge N i then current i
  else (current (i - N) + current (i + N) + current (i - 1) + current (i + 1)) / 4

end Spec

/-! ## Concrete inputs -/

namespace Example

/-- The 3 × 3 grid `[[1,1,1],[1,0,1],[1,1,1]]`. -/
def grid3 : Buf := fun i => if i = 4 then 0 else 1

/-- The 4 × 4 grid whose edge cells are 1 and whose four interior cells are 0. -/
def grid4 : Buf := fun i => if i = 5 ∨ i = 6 ∨ i = 9 ∨ i = 10 then 0 else 1

/-- The 4 × 4 grid whose edge cells are 0 and whose four interior cells are 1. -/
def grid4neg : Buf := fun i => if i = 5 ∨ i = 6 ∨ i = 9 ∨ i = 10 then 1 else 0

/-- A buffer of zeros, for what `malloc` returns. -/
def zeros : Buf := fun _ => 0

/-- All ranks of `run` at the start: every rank holds the same generated `result`; `subResults`
and `changed` are not yet written. -/
def world (grid : Buf) : Nat → MPI.Proc :=
  fun _ => { result := grid, subResults := zeros, changed := false }

end Example

namespace Example

/-- The 4 × 4 grid whose edge cells are 1 and whose four interior cells are `x`. -/
def grid4x (x : ℚ) : Buf := fun i => if i = 5 ∨ i = 6 ∨ i = 9 ∨ i = 10 then x else 1

end Example

/-! ## The edge tests by name, and the shared memory of the threads -/

namespace MPI

/-- The edge test of `run` (lines 156-158) for the flattened index `pos = startPos + i`. -/
def onEdge (arraySize pos : Nat) : Bool :=
  let row := pos / arraySize
  let col := pos % arraySize
  row == 0 || row == arraySize - 1 || col == 0 || col == arraySize - 1

end MPI

namespace POSIX

/-- The edge test of `threadMain` (lines 59-60). -/
def edge (arrayWidth arrayHeight i : Nat) : Bool :=
  decide (i < arrayWidth) || decide (i ≥ arrayWidth * (arrayHeight - 1)) ||
    i % arrayWidth == 0 || i % arrayWidth == arrayWidth - 1

/-- The memory the threads of `solve` share: the buffer `*startArray` (CURRENT), the buffer
`*resultArray` (NEXT) and the flag `changed`. -/
structure Mem where
  startArray : Buf
  resultArray : Buf
  changed : Bool

/-- One pass of the body of the `for` loop of `threadMain` (lines 58-73) as a step on the
shared memory: `currentStartArray` is read, `currentResultArray[i]` is assigned (line 63 or
line 68) and `*changed` may be set (line 70). -/
def threadStepMem (arrayWidth arrayHeight : Nat) (precision : ℚ) (m : Mem) (i : Nat) : Mem :=
  let currentStartArray := m.startArray
  let edge := decide (i < arrayWidth) || decide (i ≥ arrayWidth * (arrayHeight - 1)) ||
    i % arrayWidth == 0 || i % arrayWidth == arrayWidth - 1
  if edge then
    { m with resultArray := Function.update m.resultArray i (currentStartArray i) }
  else
    let total := currentStartArray (i - arrayWidth) + currentStartArray (i + arrayWidth) +
      currentStartArray (i - 1) + currentStartArray (i + 1)
    let currentResultArray := Function.update m.resultArray i (total / 4)
    { m with
      resultArray := currentResultArray
      changed := if currentResultArray i - currentStartArray i ≥ precision then true
        else m.changed }

/-- The `for` loop of `threadMain` (lines 58-73) of one thread as steps on the shared memory:
`i = startPos, ..., startPos + elementsToCompute - 1`. -/
def threadPassMem (arrayWidth arrayHeight : Nat) (precision : ℚ)
    (startPos elementsToCompute : Nat) (m : Mem) : Mem :=
  (List.range elementsToCompute).foldl
    (fun st k => threadStepMem arrayWidth arrayHeight precision st (startPos + k)) m

end POSIX

/-! ## The partition -/

section Partition

theorem MPI.distributeLoop_length (b : Nat) :
    ∀ k r s, (MPI.distributeLoop b k r s).length = k := by
  intro k
  induction k with
  | zero => intro r s; rfl
  | succ k ih => intro r s; simp [MPI.distributeLoop, ih]

/-- Closed form of entry `i` of the loop output. -/
theorem MPI.distributeLoop_getD (b : Nat) :
    ∀ k r s i, i < k →
      (MPI.distributeLoop b k r s).getD i (0, 0)
        = (b + (if i < r then 1 else 0), s + i * b + min i r) := by
  intro k
  induction k with
  | zero => intro r s i hi; omega
  | succ k ih =>
    intro r s i hi
    cases i with
    | zero =>
      by_cases hr : r > 0
      · simp [MPI.distributeLoop, hr]
      · have : r = 0 := by omega
        simp [MPI.distributeLoop, this]
    | succ i =>
      have hi1 : i < k := by omega
      by_cases hr : r > 0
      · simp only [MPI.distributeLoop, hr, if_true, List.getD_cons_succ]
        rw [ih _ _ _ hi1]
        have h1 : (i < r - 1) = (i + 1 < r) := by
          apply propext; constructor <;> intro h <;> omega
        have h2 : min i (r - 1) + 1 = min (i + 1) r := by
          simp only [Nat.min_def]; split_ifs <;> omega
        simp only [h1, Prod.mk.injEq, true_and]
        rw [← h2]; ring
      · have hr0 : r = 0 := by omega
        subst hr0
        simp only [MPI.distributeLoop, lt_self_iff_false, if_false, List.getD_cons_succ]
        rw [ih _ _ _ hi1]
        simp
        ring

theorem POSIX.threadArgsLoop_eq (b : Nat) :
    ∀ k r s, POSIX.threadArgsLoop b k r s = MPI.distributeLoop b k r s := by
  intro k
  induction k with
  | zero => intro r s; rfl
  | succ k ih => intro r s; simp [POSIX.threadArgsLoop, MPI.distributeLoop, ih]

end Partition

section PartitionFacts

theorem MPI.distributeWork_length (N W : Nat) :
    (MPI.distributeWork N W).1.length = W ∧ (MPI.distributeWork N W).2.length = W := by
  simp [MPI.distributeWork, MPI.distributeLoop_length]

theorem MPI.chunkSize_eq (N W i : Nat) (hi : i < W) :
    MPI.chunkSize N W i = N * N / W + (if i < N * N % W then 1 else 0) := by
  have h := MPI.distributeLoop_getD (N * N / W) W (N * N % W) 0 i hi
  have h2 := List.getD_map (MPI.distributeLoop (N * N / W) W (N * N % W) 0) (0, 0)
    (n := i) Prod.fst
  simp only [MPI.chunkSize, MPI.distributeWork]
  rw [h] at h2
  exact h2

theorem MPI.startPosition_eq (N W i : Nat) (hi : i < W) :
    MPI.startPosition N W i = i * (N * N / W) + min i (N * N % W) := by
  have h := MPI.distributeLoop_getD (N * N / W) W (N * N % W) 0 i hi
  have h2 := List.getD_map (MPI.distributeLoop (N * N / W) W (N * N % W) 0) (0, 0)
    (n := i) Prod.snd
  simp only [MPI.startPosition, MPI.distributeWork]
  rw [h] at h2
  simpa using h2

theorem MPI.startPosition_zero (N W : Nat) : MPI.startPosition N W 0 = 0 := by
  rcases Nat.eq_zero_or_pos W with h | h
  · subst h; simp [MPI.startPosition, MPI.distributeWork, MPI.distributeLoop]
  · rw [MPI.startPosition_eq N W 0 h]; simp

theorem MPI.startPosition_succ (N W i : Nat) (hi : i + 1 < W) :
    MPI.startPosition N W (i + 1) = MPI.startPosition N W i + MPI.chunkSize N W i := by
  rw [MPI.startPosition_eq N W (i + 1) hi, MPI.startPosition_eq N W i (by omega),
    MPI.chunkSize_eq N W i (by omega), Nat.succ_mul]
  simp only [Nat.min_def]
  split_ifs <;> omega

/-- The end of the last chunk is the number of cells. -/
theorem MPI.startPosition_last (N W : Nat) (hW : 1 ≤ W) :
    MPI.startPosition N W (W - 1) + MPI.chunkSize N W (W - 1) = N * N := by
  rw [MPI.startPosition_eq N W (W - 1) (by omega), MPI.chunkSize_eq N W (W - 1) (by omega)]
  have hr : N * N % W < W := Nat.mod_lt _ (by omega)
  have hd : W * (N * N / W) + N * N % W = N * N := Nat.div_add_mod _ _
  have hm : (W - 1) * (N * N / W) + N * N / W = W * (N * N / W) := by
    have h := Nat.succ_mul (W - 1) (N * N / W)
    rw [Nat.succ_eq_add_one, Nat.sub_add_cancel hW] at h
    omega
  simp only [Nat.min_def]
  split_ifs <;> omega

theorem MPI.startPosition_mono (N W : Nat) :
    ∀ j i, i < j → j < W →
      MPI.startPosition N W i + MPI.chunkSize N W i ≤ MPI.startPosition N W j := by
  intro j
  induction j with
  | zero => intro i hi; omega
  | succ j ih =>
    intro i hi hj
    have hs := MPI.startPosition_succ N W j hj
    rcases Nat.lt_or_ge i j with h | h
    · have := ih i h (by omega); omega
    · have : i = j := by omega
      subst this; omega

theorem MPI.chunkSize_pos (N W i : Nat) (hW : 1 ≤ W) (hWN : W ≤ N * N) (hi : i < W) :
    1 ≤ MPI.chunkSize N W i := by
  rw [MPI.chunkSize_eq N W i hi]
  have : 1 ≤ N * N / W := (Nat.le_div_iff_mul_le (by omega)).2 (by omega)
  omega

theorem MPI.chunk_end_le (N W i : Nat) (hi : i < W) :
    MPI.startPosition N W i + MPI.chunkSize N W i ≤ N * N := by
  have hW : 1 ≤ W := by omega
  have hl := MPI.startPosition_last N W hW
  rcases Nat.lt_or_ge i (W - 1) with h | h
  · have := MPI.startPosition_mono N W (W - 1) i h (by omega); omega
  · have : i = W - 1 := by omega
    subst this; omega

/-- Every cell belongs to the chunk of some processor. -/
theorem MPI.chunk_cover (N W : Nat) (hW : 1 ≤ W) (j : Nat) (hj : j < N * N) :
    ∃ p, p < W ∧ MPI.startPosition N W p ≤ j ∧
      j < MPI.startPosition N W p + MPI.chunkSize N W p := by
  have key : ∀ k, k < W → j < MPI.startPosition N W k + MPI.chunkSize N W k →
      ∃ p, p < W ∧ MPI.startPosition N W p ≤ j ∧
        j < MPI.startPosition N W p + MPI.chunkSize N W p := by
    intro k
    induction k with
    | zero =>
      intro h0 hlt
      exact ⟨0, h0, by rw [MPI.startPosition_zero]; omega, hlt⟩
    | succ k ih =>
      intro hk hlt
      rcases Nat.lt_or_ge j (MPI.startPosition N W (k + 1)) with h | h
      · rw [MPI.startPosition_succ N W k hk] at h
        exact ih (by omega) h
      · exact ⟨k + 1, hk, h, hlt⟩
  exact key (W - 1) (by omega) (by rw [MPI.startPosition_last N W hW]; exact hj)

theorem MPI.chunkSize_sum (N W : Nat) (hW : 1 ≤ W) :
    (MPI.distributeWork N W).1.sum = N * N := by
  have gen : ∀ k r s b, ((MPI.distributeLoop b k r s).map Prod.fst).sum = k * b + min k r := by
    intro k
    induction k with
    | zero => intro r s b; simp [MPI.distributeLoop]
    | succ k ih =>
      intro r s b
      by_cases hr : r > 0
      · simp only [MPI.distributeLoop, hr, if_true, List.map_cons, List.sum_cons, ih,
          Nat.succ_mul, Nat.min_def]
        split_ifs <;> omega
      · have hr0 : r = 0 := by omega
        subst hr0
        simp only [MPI.distributeLoop, lt_self_iff_false, if_false, List.map_cons,
          List.sum_cons, ih, Nat.succ_mul]
        simp
        omega
  simp only [MPI.distributeWork, gen]
  have hr : N * N % W < W := Nat.mod_lt _ (by omega)
  have hd : W * (N * N / W) + N * N % W = N * N := Nat.div_add_mod _ _
  rw [Nat.min_eq_right (by omega)]
  omega

theorem POSIX.elementsToCompute_eq (N W i : Nat) :
    POSIX.elementsToCompute N W i = MPI.chunkSize N W i := by
  simp [POSIX.elementsToCompute, POSIX.threadArgs, POSIX.threadArgsLoop_eq, MPI.chunkSize,
    MPI.distributeWork]

theorem POSIX.startPos_eq (N W i : Nat) :
    POSIX.startPos N W i = MPI.startPosition N W i := by
  simp [POSIX.startPos, POSIX.threadArgs, POSIX.threadArgsLoop_eq, MPI.startPosition,
    MPI.distributeWork]

end PartitionFacts

section PartitionClaims

theorem MPI.chunkSize_sum_range (N W : Nat) (hW : 1 ≤ W) :
    ((List.range W).map (MPI.chunkSize N W)).sum = N * N := by
  have h := MPI.chunkSize_sum N W hW
  have hl := (MPI.distributeWork_length N W).1
  have : (List.range W).map (MPI.chunkSize N W) = (MPI.distributeWork N W).1 := by
    apply List.ext_getElem
    · simp [hl]
    · intro n h1 h2
      simp only [List.getElem_map, List.getElem_range, MPI.chunkSize]
      exact List.getD_eq_getElem _ _ h2
  rw [this]; exact h

theorem MPI.completePartition (N W : Nat) (hW : 1 ≤ W) :
    CompletePartition (N * N) W (MPI.startPosition N W) (MPI.chunkSize N W) := by
  refine ⟨MPI.startPosition_zero N W, MPI.startPosition_succ N W, ?_,
    MPI.chunkSize_sum_range N W hW, ?_⟩
  · intro i j hi hj hij x hx
    rcases Nat.lt_or_gt_of_ne hij with h | h
    · have := MPI.startPosition_mono N W j i h hj; omega
    · have := MPI.startPosition_mono N W i j h hi; omega
  · intro i j hi hj
    rw [MPI.chunkSize_eq N W i hi, MPI.chunkSize_eq N W j hj]
    split_ifs <;> omega

/-- C1 (partition completeness). For every worker count `W ≥ 1` (so in particular for
`N ≥ 1` and `1 ≤ W ≤ N * N`), `distributeWork` fills both arrays with `W` entries and its
`(startPositions[i], chunkSizes[i])` are contiguous from 0, pairwise disjoint, sum to `N * N`
and differ in size by at most one; the `(startPos, elementsToCompute)` of the threads of `solve`
have the same properties. -/
theorem partition_complete (N W : Nat) (hW : 1 ≤ W) :
    ((MPI.distributeWork N W).1.length = W ∧ (MPI.distributeWork N W).2.length = W) ∧
    CompletePartition (N * N) W (MPI.startPosition N W) (MPI.chunkSize N W) ∧
    (POSIX.threadArgs N W).length = W ∧
    CompletePartition (N * N) W (POSIX.startPos N W) (POSIX.elementsToCompute N W) := by
  refine ⟨MPI.distributeWork_length N W, MPI.completePartition N W hW, ?_, ?_⟩
  · simp [POSIX.threadArgs, POSIX.threadArgsLoop_eq, MPI.distributeLoop_length]
  · have h1 : POSIX.startPos N W = MPI.startPosition N W :=
      funext (POSIX.startPos_eq N W)
    have h2 : POSIX.elementsToCompute N W = MPI.chunkSize N W :=
      funext (POSIX.elementsToCompute_eq N W)
    rw [h1, h2]
    exact MPI.completePartition N W hW

theorem partition_complete_witness :
    1 ≤ 2 ∧
    (((MPI.distributeWork 3 2).1.length = 2 ∧ (MPI.distributeWork 3 2).2.length = 2) ∧
    CompletePartition (3 * 3) 2 (MPI.startPosition 3 2) (MPI.chunkSize 3 2) ∧
    (POSIX.threadArgs 3 2).length = 2 ∧
    CompletePartition (3 * 3) 2 (POSIX.startPos 3 2) (POSIX.elementsToCompute 3 2)) :=
  ⟨by decide, partition_complete 3 2 (by decide)⟩

/-- C2 (remainder distribution). For `1 ≤ W ≤ N * N`, with `base = N * N / W` and
`r = N * N % W`, `distributeWork` gives processor `i` the count `base + 1` when `i < r` and
`base` when `i ≥ r`; `startPositions[0] = 0` and the start positions are strictly increasing. -/
theorem remainder_distribution (N W : Nat) (hW : 1 ≤ W) (hWN : W ≤ N * N) :
    (∀ i, i < W → i < N * N % W → MPI.chunkSize N W i = N * N / W + 1) ∧
    (∀ i, i < W → N * N % W ≤ i → MPI.chunkSize N W i = N * N / W) ∧
    MPI.startPosition N W 0 = 0 ∧
    (∀ i j, i < j → j < W → MPI.startPosition N W i < MPI.startPosition N W j) := by
  refine ⟨?_, ?_, MPI.startPosition_zero N W, ?_⟩
  · intro i hi hr
    rw [MPI.chunkSize_eq N W i hi, if_pos hr]
  · intro i hi hr
    rw [MPI.chunkSize_eq N W i hi, if_neg (by omega)]
    rfl
  · intro i j hij hj
    have h1 := MPI.startPosition_mono N W j i hij hj
    have h2 := MPI.chunkSize_pos N W i hW hWN (by omega)
    omega

theorem remainder_distribution_witness :
    1 ≤ 2 ∧ 2 ≤ 3 * 3 ∧
    ((∀ i, i < 2 → i < 3 * 3 % 2 → MPI.chunkSize 3 2 i = 3 * 3 / 2 + 1) ∧
    (∀ i, i < 2 → 3 * 3 % 2 ≤ i → MPI.chunkSize 3 2 i = 3 * 3 / 2) ∧
    MPI.startPosition 3 2 0 = 0 ∧
    (∀ i j, i < j → j < 2 → MPI.startPosition 3 2 i < MPI.startPosition 3 2 j)) :=
  ⟨by decide, by decide, remainder_distribution 3 2 (by decide) (by decide)⟩

end PartitionClaims

section Kernel

theorem Spec.row_col (N i : Nat) : i / N * N + i % N = i := Nat.div_add_mod' i N

/-- Away from the edge, row and column are at least 1 and the four neighbours in row/column
form are the indices `i - N`, `i + N`, `i - 1`, `i + 1`. -/
theorem Spec.neighbours (N i : Nat) (h : ¬ Spec.IsEdge N i) :
    (i / N - 1) * N + i % N = i - N ∧ (i / N + 1) * N + i % N = i + N ∧
    i / N * N + (i % N - 1) = i - 1 ∧ i / N * N + (i % N + 1) = i + 1 := by
  simp only [Spec.IsEdge, not_or] at h
  obtain ⟨h1, _, h3, _⟩ := h
  have hrc := Spec.row_col N i
  have hge : N ≤ i / N * N := Nat.le_mul_of_pos_left N (Nat.pos_of_ne_zero h1)
  rw [Nat.sub_mul, Nat.add_mul, Nat.one_mul]
  omega

/-- The edge test of `run` is the edge predicate. -/
theorem MPI.onEdge_iff (N i : Nat) :
    ((i / N == 0 || i / N == N - 1 || i % N == 0 || i % N == N - 1) = true)
      ↔ Spec.IsEdge N i := by
  simp [Spec.IsEdge, or_assoc]

/-- The edge test of `threadMain` is the edge predicate on the cells of the grid. -/
theorem POSIX.edge_iff (N i : Nat) (hi : i < N * N) :
    ((decide (i < N) || decide (i ≥ N * (N - 1)) || i % N == 0 || i % N == N - 1) = true)
      ↔ Spec.IsEdge N i := by
  have hN : 0 < N := by
    rcases Nat.eq_zero_or_pos N with h | h
    · subst h; simp at hi
    · exact h
  have h1 : i < N ↔ i / N = 0 := by
    rw [Nat.div_eq_zero_iff hN]
  have h2 : i ≥ N * (N - 1) ↔ i / N = N - 1 := by
    have hlt : i / N < N := (Nat.div_lt_iff_lt_mul hN).2 hi
    have hle : N - 1 ≤ i / N ↔ (N - 1) * N ≤ i := Nat.le_div_iff_mul_le hN
    rw [Nat.mul_comm] at hle
    constructor
    · intro h
      have := hle.2 h
      omega
    · intro h
      exact hle.1 (by omega)
  simp only [Spec.IsEdge, Bool.or_eq_true, decide_eq_true_eq, beq_iff_eq, or_assoc]
  rw [h1, h2]

theorem MPI.kernelStep_fst (N : Nat) (prec : ℚ) (cur : Buf) (startPos : Nat)
    (st : Buf × Bool) (k : Nat) :
    (MPI.kernelStep N prec cur startPos st k).1
      = Function.update st.1 k (Spec.stencil N cur (startPos + k)) := by
  by_cases h : Spec.IsEdge N (startPos + k)
  · have hb := (MPI.onEdge_iff N (startPos + k)).2 h
    simp only [MPI.kernelStep, hb, if_true, Spec.stencil, h]
  · have hb : ¬ ((((startPos + k) / N == 0 || (startPos + k) / N == N - 1 ||
        (startPos + k) % N == 0 || (startPos + k) % N == N - 1)) = true) :=
      fun hb => h ((MPI.onEdge_iff N (startPos + k)).1 hb)
    obtain ⟨n1, n2, n3, n4⟩ := Spec.neighbours N (startPos + k) h
    simp [MPI.kernelStep, hb, Spec.stencil, h, MPI.accessUnwrappedArray, n1, n2, n3, n4]

theorem MPI.kernelStep_snd (N : Nat) (prec : ℚ) (cur : Buf) (startPos : Nat)
    (st : Buf × Bool) (k : Nat) :
    (MPI.kernelStep N prec cur startPos st k).2
      = (st.2 || decide (¬ Spec.IsEdge N (startPos + k) ∧
          |Spec.stencil N cur (startPos + k) - cur (startPos + k)| > prec)) := by
  by_cases h : Spec.IsEdge N (startPos + k)
  · have hb := (MPI.onEdge_iff N (startPos + k)).2 h
    simp [MPI.kernelStep, hb, h]
  · have hb : ¬ ((((startPos + k) / N == 0 || (startPos + k) / N == N - 1 ||
        (startPos + k) % N == 0 || (startPos + k) % N == N - 1)) = true) :=
      fun hb => h ((MPI.onEdge_iff N (startPos + k)).1 hb)
    obtain ⟨n1, n2, n3, n4⟩ := Spec.neighbours N (startPos + k) h
    simp [MPI.kernelStep, hb, Spec.stencil, h, MPI.accessUnwrappedArray, n1, n2, n3, n4]

theorem POSIX.threadStep_fst (N : Nat) (prec : ℚ) (cur : Buf) (st : Buf × Bool) (i : Nat)
    (hi : i < N * N) :
    (POSIX.threadStep N N prec cur st i).1 = Function.update st.1 i (Spec.stencil N cur i) := by
  by_cases h : Spec.IsEdge N i
  · have hb := (POSIX.edge_iff N i hi).2 h
    simp only [POSIX.threadStep, hb, if_true, Spec.stencil, h]
  · have hb : ¬ ((decide (i < N) || decide (i ≥ N * (N - 1)) || i % N == 0 ||
        i % N == N - 1) = true) := fun hb => h ((POSIX.edge_iff N i hi).1 hb)
    simp [POSIX.threadStep, hb, Spec.stencil, h]

theorem POSIX.threadStep_snd (N : Nat) (prec : ℚ) (cur : Buf) (st : Buf × Bool) (i : Nat)
    (hi : i < N * N) :
    (POSIX.threadStep N N prec cur st i).2
      = (st.2 || decide (¬ Spec.IsEdge N i ∧ Spec.stencil N cur i - cur i ≥ prec)) := by
  by_cases h : Spec.IsEdge N i
  · have hb := (POSIX.edge_iff N i hi).2 h
    simp [POSIX.threadStep, hb, h]
  · have hb : ¬ ((decide (i < N) || decide (i ≥ N * (N - 1)) || i % N == 0 ||
        i % N == N - 1) = true) := fun hb => h ((POSIX.edge_iff N i hi).1 hb)
    simp only [POSIX.threadStep, hb, if_false, Spec.stencil, h, Function.update_same,
      not_false_eq_true, true_and]
    by_cases hc : (cur (i - N) + cur (i + N) + cur (i - 1) + cur (i + 1)) / 4 - cur i ≥ prec
    · simp [hc]
    · simp [hc]

/-- C3 (stencil update rule). For every cell `i < N * N` of the grid, one pass of the loop body
of either realization stores in the cell of the output buffer that belongs to `i` the value
`CURRENT[i]` when `i` is an edge cell and
`(CURRENT[i-N] + CURRENT[i+N] + CURRENT[i-1] + CURRENT[i+1]) / 4` otherwise, and on an edge
cell leaves the changed flag as it was. -/
theorem stencil_update_rule (N : Nat) (precision : ℚ) (current : Buf) (i : Nat)
    (hi : i < N * N) :
    (∀ startPos k subResults changed, startPos + k = i →
      (Spec.IsEdge N i →
        (MPI.kernelStep N precision current startPos (subResults, changed) k).1 k = current i ∧
        (MPI.kernelStep N precision current startPos (subResults, changed) k).2 = changed) ∧
      (¬ Spec.IsEdge N i →
        (MPI.kernelStep N precision current startPos (subResults, changed) k).1 k
          = (current (i - N) + current (i + N) + current (i - 1) + current (i + 1)) / 4)) ∧
    (∀ resultArray changed,
      (Spec.IsEdge N i →
        (POSIX.threadStep N N precision current (resultArray, changed) i).1 i = current i ∧
        (POSIX.threadStep N N precision current (resultArray, changed) i).2 = changed) ∧
      (¬ Spec.IsEdge N i →
        (POSIX.threadStep N N precision current (resultArray, changed) i).1 i
          = (current (i - N) + current (i + N) + current (i - 1) + current (i + 1)) / 4)) := by
  constructor
  · intro startPos k sub ch hk
    subst hk
    rw [MPI.kernelStep_fst, MPI.kernelStep_snd]
    constructor
    · intro h; simp [Spec.stencil, h]
    · intro h; simp [Spec.stencil, h]
  · intro next ch
    rw [POSIX.threadStep_fst N precision current _ i hi,
      POSIX.threadStep_snd N precision current _ i hi]
    constructor
    · intro h; simp [Spec.stencil, h]
    · intro h; simp [Spec.stencil, h]

end Kernel

theorem stencil_update_rule_witness :
    4 < 3 * 3 ∧
    ((∀ startPos k subResults changed, startPos + k = 4 →
      (Spec.IsEdge 3 4 →
        (MPI.kernelStep 3 (1 / 2) Example.grid3 startPos (subResults, changed) k).1 k
          = Example.grid3 4 ∧
        (MPI.kernelStep 3 (1 / 2) Example.grid3 startPos (subResults, changed) k).2 = changed) ∧
      (¬ Spec.IsEdge 3 4 →
        (MPI.kernelStep 3 (1 / 2) Example.grid3 startPos (subResults, changed) k).1 k
          = (Example.grid3 (4 - 3) + Example.grid3 (4 + 3) + Example.grid3 (4 - 1)
              + Example.grid3 (4 + 1)) / 4)) ∧
    (∀ resultArray changed,
      (Spec.IsEdge 3 4 →
        (POSIX.threadStep 3 3 (1 / 2) Example.grid3 (resultArray, changed) 4).1 4
          = Example.grid3 4 ∧
        (POSIX.threadStep 3 3 (1 / 2) Example.grid3 (resultArray, changed) 4).2 = changed) ∧
      (¬ Spec.IsEdge 3 4 →
        (POSIX.threadStep 3 3 (1 / 2) Example.grid3 (resultArray, changed) 4).1 4
          = (Example.grid3 (4 - 3) + Example.grid3 (4 + 3) + Example.grid3 (4 - 1)
              + Example.grid3 (4 + 1)) / 4))) :=
  ⟨by decide, stencil_update_rule 3 (1 / 2) Example.grid3 4 (by decide)⟩

section Loops

theorem MPI.kernelStep_eq (N : Nat) (prec : ℚ) (cur : Buf) (startPos : Nat)
    (st : Buf × Bool) (k : Nat) :
    MPI.kernelStep N prec cur startPos st k
      = (Function.update st.1 k (Spec.stencil N cur (startPos + k)),
          st.2 || decide (¬ Spec.IsEdge N (startPos + k) ∧
            |Spec.stencil N cur (startPos + k) - cur (startPos + k)| > prec)) :=
  Prod.ext (MPI.kernelStep_fst N prec cur startPos st k)
    (MPI.kernelStep_snd N prec cur startPos st k)

/-- The kernel loop of one rank, in closed form. -/
theorem MPI.kernelLoop_eq (N : Nat) (prec : ℚ) (cur : Buf) (startPos : Nat) :
    ∀ count (st : Buf × Bool),
      (List.range count).foldl (MPI.kernelStep N prec cur startPos) st
        = (fun k => if k < count then Spec.stencil N cur (startPos + k) else st.1 k,
            st.2 || (List.range count).any (fun k =>
              decide (¬ Spec.IsEdge N (startPos + k) ∧
                |Spec.stencil N cur (startPos + k) - cur (startPos + k)| > prec))) := by
  intro count
  induction count with
  | zero => intro st; simp
  | succ n ih =>
    intro st
    rw [List.range_succ, List.foldl_append, ih, List.foldl_cons, List.foldl_nil,
      MPI.kernelStep_eq, List.any_append]
    refine Prod.ext ?_ ?_
    · funext k
      by_cases hk : k = n
      · subst hk; simp
      · simp only [Function.update_noteq hk]
        by_cases h1 : k < n
        · simp [h1, Nat.lt_succ_of_lt h1]
        · have h2 : ¬ k < n + 1 := by omega
          simp [h1, h2]
    · simp [Bool.or_assoc]

theorem MPI.compute_subResults (N : Nat) (prec : ℚ) (startPos count : Nat) (p : MPI.Proc)
    (k : Nat) (hk : k < count) :
    (MPI.compute N prec startPos count p).subResults k
      = Spec.stencil N p.result (startPos + k) := by
  simp [MPI.compute, MPI.kernelLoop_eq, hk]

theorem MPI.compute_result (N : Nat) (prec : ℚ) (startPos count : Nat) (p : MPI.Proc) :
    (MPI.compute N prec startPos count p).result = p.result := rfl

theorem MPI.compute_changed (N : Nat) (prec : ℚ) (startPos count : Nat) (p : MPI.Proc) :
    (MPI.compute N prec startPos count p).changed = true ↔
      ∃ i, startPos ≤ i ∧ i < startPos + count ∧ ¬ Spec.IsEdge N i ∧
        |Spec.stencil N p.result i - p.result i| > prec := by
  simp only [MPI.compute, MPI.kernelLoop_eq, Bool.false_or, List.any_eq_true, List.mem_range,
    decide_eq_true_eq]
  constructor
  · rintro ⟨k, hk, h1, h2⟩
    exact ⟨startPos + k, by omega, by omega, h1, h2⟩
  · rintro ⟨i, h0, h1, h2, h3⟩
    refine ⟨i - startPos, by omega, ?_⟩
    have : startPos + (i - startPos) = i := by omega
    rw [this]
    exact ⟨h2, h3⟩

/-- The loop of one thread, in closed form, when its cells lie in the grid. -/
theorem POSIX.threadPass_eq (N : Nat) (prec : ℚ) (cur : Buf) (startPos : Nat) :
    ∀ count (st : Buf × Bool), startPos + count ≤ N * N →
      POSIX.threadPass N N prec cur startPos count st
        = (fun j => if startPos ≤ j ∧ j < startPos + count then Spec.stencil N cur j
              else st.1 j,
            st.2 || (List.range count).any (fun k =>
              decide (¬ Spec.IsEdge N (startPos + k) ∧
                Spec.stencil N cur (startPos + k) - cur (startPos + k) ≥ prec))) := by
  intro count
  induction count with
  | zero =>
    intro st _
    refine Prod.ext ?_ ?_
    · funext j
      have : ¬ (startPos ≤ j ∧ j < startPos) := by omega
      simp [POSIX.threadPass, this]
    · simp [POSIX.threadPass]
  | succ n ih =>
    intro st hle
    have ih1 := ih st (by omega)
    simp only [POSIX.threadPass] at ih1 ⊢
    rw [List.range_succ, List.foldl_append, ih1, List.foldl_cons, List.foldl_nil,
      List.any_append]
    refine Prod.ext ?_ ?_
    · rw [POSIX.threadStep_fst N prec cur _ (startPos + n) (by omega)]
      funext j
      by_cases hj : j = startPos + n
      · subst hj
        have : startPos ≤ startPos + n ∧ startPos + n < startPos + (n + 1) := by omega
        simp [this]
      · simp only [Function.update_noteq hj]
        by_cases h1 : startPos ≤ j ∧ j < startPos + n
        · have h2 : startPos ≤ j ∧ j < startPos + (n + 1) := by omega
          simp [h1, h2]
        · have h2 : ¬ (startPos ≤ j ∧ j < startPos + (n + 1)) := by omega
          simp [h1, h2]
    · rw [POSIX.threadStep_snd N prec cur _ (startPos + n) (by omega)]
      simp [Bool.or_assoc]

end Loops

/-- C4 (changed flag, message passing). After a rank has run the kernel loop over its range
`[startPos, startPos + count)`, its `changed` is true exactly when some non-edge index `i` of
the range has `|NEXT[i] - CURRENT[i]| > precision`, where `NEXT[i]` is the cell
`subResults[i - startPos]` that the gather stores at `result[i]`; and the value `changed` had
before the generation plays no part. -/
theorem mpi_changed_flag (N : Nat) (precision : ℚ) (startPos count : Nat) (p : MPI.Proc) :
    ((MPI.compute N precision startPos count p).changed = true ↔
      ∃ i, startPos ≤ i ∧ i < startPos + count ∧ ¬ Spec.IsEdge N i ∧
        |(MPI.compute N precision startPos count p).subResults (i - startPos) - p.result i|
          > precision) ∧
    (∀ b, (MPI.compute N precision startPos count { p with changed := b }).changed
      = (MPI.compute N precision startPos count p).changed) := by
  constructor
  · rw [MPI.compute_changed]
    constructor
    · rintro ⟨i, h0, h1, h2, h3⟩
      refine ⟨i, h0, h1, h2, ?_⟩
      rw [MPI.compute_subResults N precision startPos count p (i - startPos) (by omega)]
      have : startPos + (i - startPos) = i := by omega
      rw [this]; exact h3
    · rintro ⟨i, h0, h1, h2, h3⟩
      refine ⟨i, h0, h1, h2, ?_⟩
      rw [MPI.compute_subResults N precision startPos count p (i - startPos) (by omega)] at h3
      have : startPos + (i - startPos) = i := by omega
      rw [this] at h3; exact h3
  · intro b; rfl

section Halo

theorem Spec.pos_of_not_edge (N i : Nat) (h : ¬ Spec.IsEdge N i) : 0 < N := by
  rcases Nat.eq_zero_or_pos N with h0 | h0
  · subst h0
    exact absurd (Or.inl (Nat.div_zero i)) h
  · exact h0

/-- Away from the edge the vertical neighbours lie one row up and one row down and the
horizontal neighbours in the same row. -/
theorem Spec.neighbour_rows (N i : Nat) (h : ¬ Spec.IsEdge N i) :
    (i - N) / N = i / N - 1 ∧ (i + N) / N = i / N + 1 ∧
    (i - 1) / N = i / N ∧ (i + 1) / N = i / N := by
  have hN := Spec.pos_of_not_edge N i h
  obtain ⟨n1, n2, n3, n4⟩ := Spec.neighbours N i h
  simp only [Spec.IsEdge, not_or] at h
  obtain ⟨h1, _, h3, h4⟩ := h
  have hc : i % N < N := Nat.mod_lt _ hN
  have e1 : (i % N + (i / N - 1) * N) / N = i / N - 1 := by
    rw [Nat.add_mul_div_right _ _ hN, Nat.div_eq_of_lt hc]; omega
  have e3 : (i % N - 1 + i / N * N) / N = i / N := by
    rw [Nat.add_mul_div_right _ _ hN, Nat.div_eq_of_lt (by omega)]; omega
  have e4 : (i % N + 1 + i / N * N) / N = i / N := by
    rw [Nat.add_mul_div_right _ _ hN, Nat.div_eq_of_lt (by omega)]; omega
  refine ⟨?_, Nat.add_div_right i hN, ?_, ?_⟩
  · rw [← n1, Nat.add_comm]; exact e1
  · rw [← n3, Nat.add_comm]; exact e3
  · rw [← n4, Nat.add_comm]; exact e4

/-- The rows rank 0 sends are the rows the receiver expects. -/
theorem MPI.send_recv_rows (N W p : Nat) :
    MPI.sendStartingRow N W p = MPI.recvStartingRow N W p ∧
    MPI.sendEndRow N W p = MPI.recvEndRow N W p := ⟨rfl, rfl⟩

/-- The rows of a cell of a chunk, and of its neighbours when it is not on the edge, lie in the
rows sent for the chunk. -/
theorem MPI.halo_rows (N W p j : Nat) (hp : p < W) (h0 : MPI.startPosition N W p ≤ j)
    (h1 : j < MPI.startPosition N W p + MPI.chunkSize N W p) :
    (MPI.sendStartingRow N W p ≤ j / N ∧ j / N ≤ MPI.sendEndRow N W p) ∧
    (¬ Spec.IsEdge N j →
      MPI.sendStartingRow N W p ≤ j / N - 1 ∧ j / N + 1 ≤ MPI.sendEndRow N W p) := by
  have hend := MPI.chunk_end_le N W p hp
  have hjN : j < N * N := by omega
  have hN : 0 < N := by
    rcases Nat.eq_zero_or_pos N with h | h
    · subst h; simp at hjN
    · exact h
  have hrow : j / N < N := (Nat.div_lt_iff_lt_mul hN).2 hjN
  have ha : MPI.startPosition N W p / N ≤ j / N := Nat.div_le_div_right h0
  have hb : j / N ≤ (MPI.startPosition N W p + MPI.chunkSize N W p - 1) / N :=
    Nat.div_le_div_right (by omega)
  simp only [MPI.sendStartingRow, MPI.sendEndRow, Spec.IsEdge, not_or]
  generalize j / N = r at *
  generalize MPI.startPosition N W p / N = a at *
  generalize (MPI.startPosition N W p + MPI.chunkSize N W p - 1) / N = b at *
  refine ⟨by omega, ?_⟩
  intro hne
  omega

/-- A cell whose row was sent lies in the block of cells that was sent. -/
theorem MPI.row_in_block (N sS sE x : Nat) (hN : 0 < N) (h1 : sS ≤ x / N) (h2 : x / N ≤ sE) :
    sS * N ≤ x ∧ x < sS * N + (sE - sS + 1) * N := by
  have a1 : sS * N ≤ x := (Nat.le_div_iff_mul_le hN).1 h1
  have a2 : x < (sE + 1) * N := (Nat.div_lt_iff_lt_mul hN).1 (by omega)
  have a3 : sS * N + (sE - sS + 1) * N = (sE + 1) * N := by
    rw [← Nat.add_mul]; congr 1; omega
  omega

/-- After the exchange, a processor's buffer agrees with the buffer of rank 0 on every cell
whose row was sent to it. -/
theorem MPI.exchange_result (N W : Nat) (w : Nat → MPI.Proc) (p x : Nat) (hN : 0 < N)
    (hp : p < W) (h1 : MPI.sendStartingRow N W p ≤ x / N) (h2 : x / N ≤ MPI.sendEndRow N W p) :
    (MPI.exchange N W w p).result x = (w 0).result x := by
  by_cases h : p = 0 ∨ W ≤ p
  · rcases h with h | h
    · subst h; simp [MPI.exchange]
    · omega
  · obtain ⟨b1, b2⟩ := MPI.row_in_block N _ _ x hN h1 h2
    have e : MPI.recvStartingRow N W p = MPI.sendStartingRow N W p := rfl
    simp only [MPI.exchange, h, if_false, copyInto, e]
    rw [if_pos ⟨b1, b2⟩]
    congr 1
    omega

/-- On the cells of its own chunk, the kernel of a processor computes from its received rows
what it would compute from the whole buffer of rank 0. -/
theorem MPI.exchange_stencil (N W : Nat) (w : Nat → MPI.Proc) (p j : Nat) (hp : p < W)
    (h0 : MPI.startPosition N W p ≤ j)
    (h1 : j < MPI.startPosition N W p + MPI.chunkSize N W p) :
    (MPI.exchange N W w p).result j = (w 0).result j ∧
    Spec.stencil N (MPI.exchange N W w p).result j = Spec.stencil N (w 0).result j := by
  obtain ⟨⟨r1, r2⟩, r3⟩ := MPI.halo_rows N W p j hp h0 h1
  have hend := MPI.chunk_end_le N W p hp
  have hN : 0 < N := by
    rcases Nat.eq_zero_or_pos N with h | h
    · subst h; simp at hend; omega
    · exact h
  have own := MPI.exchange_result N W w p j hN hp r1 r2
  refine ⟨own, ?_⟩
  by_cases he : Spec.IsEdge N j
  · simp only [Spec.stencil, he, if_true, own]
  · obtain ⟨q1, q2, q3, q4⟩ := Spec.neighbour_rows N j he
    obtain ⟨s1, s2⟩ := r3 he
    simp only [Spec.stencil, he, if_false]
    rw [MPI.exchange_result N W w p (j - N) hN hp (by omega) (by omega),
      MPI.exchange_result N W w p (j + N) hN hp (by omega) (by omega),
      MPI.exchange_result N W w p (j - 1) hN hp (by omega) (by omega),
      MPI.exchange_result N W w p (j + 1) hN hp (by omega) (by omega)]

end Halo

section Generation

theorem MPI.gatherv_succ (k : Nat) (w : Nat → MPI.Proc) (cnt displs : Nat → Nat)
    (recvbuf : Buf) :
    MPI.gatherv (k + 1) w cnt displs recvbuf
      = copyInto (MPI.gatherv k w cnt displs recvbuf) (displs k) (w k).subResults 0 (cnt k) := by
  simp [MPI.gatherv, List.range_succ, List.foldl_append]

/-- The gather, cell by cell: a cell of some rank's block holds what that rank contributed, any
other cell is untouched. -/
theorem MPI.gatherv_eq (w : Nat → MPI.Proc) (cnt displs : Nat → Nat) (recvbuf v : Buf) :
    ∀ k, (∀ p, p < k → ∀ j, displs p ≤ j → j < displs p + cnt p →
        (w p).subResults (j - displs p) = v j) →
      ∀ j, ((∃ p, p < k ∧ displs p ≤ j ∧ j < displs p + cnt p) →
          MPI.gatherv k w cnt displs recvbuf j = v j) ∧
        ((¬ ∃ p, p < k ∧ displs p ≤ j ∧ j < displs p + cnt p) →
          MPI.gatherv k w cnt displs recvbuf j = recvbuf j) := by
  intro k
  induction k with
  | zero =>
    intro _ j
    constructor
    · rintro ⟨p, hp, _⟩; omega
    · intro _; simp [MPI.gatherv]
  | succ k ih =>
    intro hv j
    have ih1 := ih (fun p hp => hv p (by omega)) j
    rw [MPI.gatherv_succ]
    by_cases hk : displs k ≤ j ∧ j < displs k + cnt k
    · constructor
      · intro _
        simp only [copyInto, hk, and_self, if_true, Nat.zero_add]
        exact hv k (by omega) j hk.1 hk.2
      · intro hno
        exact absurd ⟨k, by omega, hk.1, hk.2⟩ hno
    · simp only [copyInto, hk, if_false]
      constructor
      · rintro ⟨p, hp, hown⟩
        have hpk : p ≠ k := by
          intro h; subst h; exact hk hown
        exact ih1.1 ⟨p, by omega, hown⟩
      · intro hno
        apply ih1.2
        rintro ⟨p, hp, hown⟩
        exact hno ⟨p, by omega, hown⟩

theorem MPI.allreduceLor_iff (W : Nat) (w : Nat → MPI.Proc) :
    MPI.allreduceLor W w = true ↔ ∃ p, p < W ∧ (w p).changed = true := by
  simp [MPI.allreduceLor]

theorem MPI.owner_iff (N W j : Nat) (hW : 1 ≤ W) :
    (∃ p, p < W ∧ MPI.startPosition N W p ≤ j ∧
      j < MPI.startPosition N W p + MPI.chunkSize N W p) ↔ j < N * N := by
  constructor
  · rintro ⟨p, hp, _, h1⟩
    have := MPI.chunk_end_le N W p hp
    omega
  · exact MPI.chunk_cover N W hW j

/-- The authoritative buffer after one generation: the stencil of the authoritative buffer on
the cells of the grid, and nothing else is written. -/
theorem MPI.generation_result (N W : Nat) (prec : ℚ) (w : Nat → MPI.Proc) (hW : 1 ≤ W)
    (j : Nat) :
    (MPI.generation N W prec w 0).result j
      = if j < N * N then Spec.stencil N (w 0).result j else (w 0).result j := by
  have h0 : (0 : Nat) < W := by omega
  have hv : ∀ p, p < W → ∀ j, MPI.startPosition N W p ≤ j →
      j < MPI.startPosition N W p + MPI.chunkSize N W p →
      (MPI.computeAll N W prec (MPI.exchange N W w) p).subResults (j - MPI.startPosition N W p)
        = Spec.stencil N (w 0).result j := by
    intro p hp j hj0 hj1
    simp only [MPI.computeAll, hp, if_true]
    rw [MPI.compute_subResults _ _ _ _ _ _ (by omega)]
    have : MPI.startPosition N W p + (j - MPI.startPosition N W p) = j := by omega
    rw [this]
    exact (MPI.exchange_stencil N W w p j hp hj0 hj1).2
  have hg := MPI.gatherv_eq (MPI.computeAll N W prec (MPI.exchange N W w)) (MPI.chunkSize N W)
    (MPI.startPosition N W) (MPI.computeAll N W prec (MPI.exchange N W w) 0).result
    (fun j => Spec.stencil N (w 0).result j) W hv j
  have hr0 : (MPI.computeAll N W prec (MPI.exchange N W w) 0).result = (w 0).result := by
    simp [MPI.computeAll, h0, MPI.compute_result, MPI.exchange]
  simp only [MPI.generation, h0, if_true]
  by_cases hj : j < N * N
  · rw [if_pos hj]
    exact hg.1 ((MPI.owner_iff N W j hW).2 hj)
  · rw [if_neg hj, hg.2 (fun h => hj ((MPI.owner_iff N W j hW).1 h)), hr0]

/-- The combined flag after one generation, on every rank. -/
theorem MPI.generation_changed (N W : Nat) (prec : ℚ) (w : Nat → MPI.Proc) (hW : 1 ≤ W)
    (rank : Nat) (hr : rank < W) :
    (MPI.generation N W prec w rank).changed = true ↔
      ∃ j, j < N * N ∧ ¬ Spec.IsEdge N j ∧
        |Spec.stencil N (w 0).result j - (w 0).result j| > prec := by
  simp only [MPI.generation, hr, if_true, MPI.allreduceLor_iff]
  constructor
  · rintro ⟨p, hp, hc⟩
    simp only [MPI.computeAll, hp, if_true] at hc
    rw [MPI.compute_changed] at hc
    obtain ⟨i, h0, h1, h2, h3⟩ := hc
    obtain ⟨e1, e2⟩ := MPI.exchange_stencil N W w p i hp h0 h1
    rw [e1, e2] at h3
    exact ⟨i, (MPI.owner_iff N W i hW).1 ⟨p, hp, h0, h1⟩, h2, h3⟩
  · rintro ⟨j, hj, h2, h3⟩
    obtain ⟨p, hp, h0, h1⟩ := (MPI.owner_iff N W j hW).2 hj
    refine ⟨p, hp, ?_⟩
    simp only [MPI.computeAll, hp, if_true]
    rw [MPI.compute_changed]
    obtain ⟨e1, e2⟩ := MPI.exchange_stencil N W w p j hp h0 h1
    exact ⟨j, h0, h1, h2, by rw [e1, e2]; exact h3⟩

theorem POSIX.threads_eq (N W : Nat) (prec : ℚ) (fresh cur : Buf) :
    ∀ k, k ≤ W →
      (∀ j, ((∃ p, p < k ∧ MPI.startPosition N W p ≤ j ∧
            j < MPI.startPosition N W p + MPI.chunkSize N W p) →
          ((List.range k).foldl (fun shared t => POSIX.threadPass N N prec cur
            (POSIX.startPos N W t) (POSIX.elementsToCompute N W t) shared) (fresh, false)).1 j
            = Spec.stencil N cur j) ∧
        ((¬ ∃ p, p < k ∧ MPI.startPosition N W p ≤ j ∧
            j < MPI.startPosition N W p + MPI.chunkSize N W p) →
          ((List.range k).foldl (fun shared t => POSIX.threadPass N N prec cur
            (POSIX.startPos N W t) (POSIX.elementsToCompute N W t) shared) (fresh, false)).1 j
            = fresh j)) ∧
      (((List.range k).foldl (fun shared t => POSIX.threadPass N N prec cur
            (POSIX.startPos N W t) (POSIX.elementsToCompute N W t) shared) (fresh, false)).2
          = true ↔
        ∃ p, p < k ∧ ∃ j, MPI.startPosition N W p ≤ j ∧
          j < MPI.startPosition N W p + MPI.chunkSize N W p ∧
          ¬ Spec.IsEdge N j ∧ Spec.stencil N cur j - cur j ≥ prec) := by
  intro k
  induction k with
  | zero =>
    intro _
    refine ⟨fun j => ⟨?_, fun _ => by simp⟩, ?_⟩
    · rintro ⟨p, hp, _⟩; omega
    · simp
  | succ k ih =>
    intro hk
    obtain ⟨ihv, ihf⟩ := ih (by omega)
    have hend := MPI.chunk_end_le N W k (by omega)
    rw [List.range_succ, List.foldl_append, List.foldl_cons, List.foldl_nil,
      POSIX.startPos_eq, POSIX.elementsToCompute_eq,
      POSIX.threadPass_eq N prec cur _ _ _ hend]
    refine ⟨fun j => ?_, ?_⟩
    · by_cases hj : MPI.startPosition N W k ≤ j ∧
          j < MPI.startPosition N W k + MPI.chunkSize N W k
      · refine ⟨fun _ => by simp only [hj, and_self, if_true], fun hno => ?_⟩
        exact absurd ⟨k, by omega, hj.1, hj.2⟩ hno
      · simp only [hj, if_false]
        constructor
        · rintro ⟨p, hp, hown⟩
          have hpk : p ≠ k := by
            intro h; subst h; exact hj hown
          exact (ihv j).1 ⟨p, by omega, hown⟩
        · intro hno
          apply (ihv j).2
          rintro ⟨p, hp, hown⟩
          exact hno ⟨p, by omega, hown⟩
    · simp only [Bool.or_eq_true, ihf, List.any_eq_true, List.mem_range, decide_eq_true_eq]
      constructor
      · rintro (⟨p, hp, h⟩ | ⟨q, hq, h1, h2⟩)
        · exact ⟨p, by omega, h⟩
        · exact ⟨k, by omega, MPI.startPosition N W k + q, by omega, by omega, h1, h2⟩
      · rintro ⟨p, hp, j, h0, h1, h2, h3⟩
        by_cases hpk : p = k
        · subst hpk
          right
          refine ⟨j - MPI.startPosition N W p, by omega, ?_⟩
          have : MPI.startPosition N W p + (j - MPI.startPosition N W p) = j := by omega
          rw [this]
          exact ⟨h2, h3⟩
        · left
          exact ⟨p, by omega, j, h0, h1, h2, h3⟩

/-- The buffer after one generation of `solve`: the stencil of `startArray` on the cells of the
grid; no other cell of the fresh buffer is written. -/
theorem POSIX.solveGeneration_result (N W : Nat) (prec : ℚ) (fresh cur : Buf) (hW : 1 ≤ W)
    (j : Nat) :
    (POSIX.generation N W prec fresh cur).1 j
      = if j < N * N then Spec.stencil N cur j else fresh j := by
  obtain ⟨hv, _⟩ := POSIX.threads_eq N W prec fresh cur W (Nat.le_refl W)
  simp only [POSIX.generation]
  by_cases hj : j < N * N
  · rw [if_pos hj]
    exact (hv j).1 ((MPI.owner_iff N W j hW).2 hj)
  · rw [if_neg hj]
    exact (hv j).2 (fun h => hj ((MPI.owner_iff N W j hW).1 h))

/-- The shared flag after one generation of `solve`. -/
theorem POSIX.solveGeneration_changed (N W : Nat) (prec : ℚ) (fresh cur : Buf) (hW : 1 ≤ W) :
    (POSIX.generation N W prec fresh cur).2 = true ↔
      ∃ j, j < N * N ∧ ¬ Spec.IsEdge N j ∧ Spec.stencil N cur j - cur j ≥ prec := by
  obtain ⟨_, hf⟩ := POSIX.threads_eq N W prec fresh cur W (Nat.le_refl W)
  simp only [POSIX.generation]
  rw [hf]
  constructor
  · rintro ⟨p, hp, j, h0, h1, h2, h3⟩
    exact ⟨j, (MPI.owner_iff N W j hW).1 ⟨p, hp, h0, h1⟩, h2, h3⟩
  · rintro ⟨j, hj, h2, h3⟩
    obtain ⟨p, hp, h0, h1⟩ := (MPI.owner_iff N W j hW).2 hj
    exact ⟨p, hp, j, h0, h1, h2, h3⟩

end Generation

section Flags

/-- C5 (changed flag, shared memory), evaluated where the code departs from it: on the 4 × 4
grid with edge 0 and interior 1 and precision 1/4, one generation of `solve` with one thread
moves the interior cell 5 from 1 to 1/2, so `|NEXT[5] - CURRENT[5]| = 1/2 ≥ 1/4`, and yet leaves
`changed` false: `threadMain` compares the signed difference `NEXT[i] - CURRENT[i]`, without the
`fabs` of `run`. -/
theorem posix_changed_flag_signed :
    ¬ Spec.IsEdge 4 5 ∧
    (POSIX.generation 4 1 (1 / 4) Example.zeros Example.grid4neg).1 5 = 1 / 2 ∧
    Example.grid4neg 5 = 1 ∧
    |(POSIX.generation 4 1 (1 / 4) Example.zeros Example.grid4neg).1 5 - Example.grid4neg 5|
      ≥ 1 / 4 ∧
    (POSIX.generation 4 1 (1 / 4) Example.zeros Example.grid4neg).2 = false := by
  have hv : (POSIX.generation 4 1 (1 / 4) Example.zeros Example.grid4neg).1 5 = 1 / 2 := by
    rw [POSIX.solveGeneration_result 4 1 _ _ _ (by decide)]
    norm_num [Spec.stencil, Spec.IsEdge, Example.grid4neg]
  refine ⟨by decide, hv, by simp [Example.grid4neg], ?_, ?_⟩
  · have h5 : Example.grid4neg 5 = 1 := by simp [Example.grid4neg]
    have habs : |(1 / 2 : ℚ) - 1| = 1 / 2 := by
      rw [abs_of_neg (by norm_num)]; norm_num
    rw [hv, h5, habs]; norm_num
  · rw [Bool.eq_false_iff, Ne, POSIX.solveGeneration_changed 4 1 _ _ _ (by decide)]
    rintro ⟨j, hj, h2, h3⟩
    have hj16 : j < 16 := hj
    interval_cases j <;> first
      | exact h2 (by decide)
      | (norm_num [Spec.stencil, Spec.IsEdge, Example.grid4neg] at h3)

end Flags

section Boundary

theorem Spec.isEdge_of_row_col (N r c : Nat) (hc : c < N)
    (h : r = 0 ∨ r = N - 1 ∨ c = 0 ∨ c = N - 1) : Spec.IsEdge N (r * N + c) := by
  have hN : 0 < N := by omega
  have h1 : (r * N + c) / N = r := by
    rw [Nat.add_comm, Nat.add_mul_div_right _ _ hN, Nat.div_eq_of_lt hc]; omega
  have h2 : (r * N + c) % N = c := by
    rw [Nat.add_comm, Nat.add_mul_mod_self_right, Nat.mod_eq_of_lt hc]
  simp only [Spec.IsEdge, h1, h2]
  exact h

theorem Spec.stencil_edge (N : Nat) (cur : Buf) (i : Nat) (h : Spec.IsEdge N i) :
    Spec.stencil N cur i = cur i := by
  simp [Spec.stencil, h]

/-- One generation of `run` leaves every edge cell of the authoritative buffer as it is. -/
theorem MPI.generation_edge (N W : Nat) (prec : ℚ) (w : Nat → MPI.Proc) (hW : 1 ≤ W)
    (j : Nat) (h : Spec.IsEdge N j) :
    (MPI.generation N W prec w 0).result j = (w 0).result j := by
  rw [MPI.generation_result N W prec w hW]
  split_ifs
  · exact Spec.stencil_edge N _ j h
  · rfl

theorem MPI.generations_edge (N W : Nat) (prec : ℚ) (hW : 1 ≤ W) (j : Nat)
    (h : Spec.IsEdge N j) :
    ∀ fuel (w : Nat → MPI.Proc), ∀ w1 ∈ MPI.generations N W prec fuel w,
      (w1 0).result j = (w 0).result j := by
  intro fuel
  induction fuel with
  | zero => intro w w1 hm; simp [MPI.generations] at hm
  | succ n ih =>
    intro w w1 hm
    simp only [MPI.generations, List.mem_cons] at hm
    rcases hm with hm | hm
    · rw [hm]; exact MPI.generation_edge N W prec w hW j h
    · split_ifs at hm
      · rw [ih _ w1 hm]; exact MPI.generation_edge N W prec w hW j h
      · simp at hm

theorem POSIX.solveGenerations_edge (N W : Nat) (prec : ℚ) (hW : 1 ≤ W) (j : Nat)
    (hj : j < N * N) (h : Spec.IsEdge N j) :
    ∀ fuel (alloc : Nat → Buf) (cur : Buf), ∀ out ∈ POSIX.generations N W prec fuel alloc cur,
      out.1 j = cur j := by
  intro fuel
  induction fuel with
  | zero => intro alloc cur out hm; simp [POSIX.generations] at hm
  | succ n ih =>
    intro alloc cur out hm
    have hstep : (POSIX.generation N W prec (alloc 0) cur).1 j = cur j := by
      rw [POSIX.solveGeneration_result N W prec _ _ hW, if_pos hj]
      exact Spec.stencil_edge N _ j h
    simp only [POSIX.generations, List.mem_cons] at hm
    rcases hm with hm | hm
    · rw [hm]; exact hstep
    · split_ifs at hm
      · rw [ih _ _ out hm]; exact hstep
      · simp at hm

/-- C6 (boundary invariance). For every worker count `W ≥ 1`, every initial state and every
generation the loop of `run` performs, each cell in row 0, row `N - 1`, column 0 or column
`N - 1` of the authoritative buffer (rank 0) after that generation equals the same cell of the
initial buffer; and the same for `startArray` after every generation the loop of `solve`
performs. -/
theorem boundary_invariance (N W : Nat) (precision : ℚ) (hW : 1 ≤ W) (r c : Nat)
    (hr : r < N) (hc : c < N) (hedge : r = 0 ∨ r = N - 1 ∨ c = 0 ∨ c = N - 1) :
    (∀ fuel (w : Nat → MPI.Proc), ∀ w1 ∈ MPI.generations N W precision fuel w,
      (w1 0).result (r * N + c) = (w 0).result (r * N + c)) ∧
    (∀ fuel (alloc : Nat → Buf) (startArray : Buf),
      ∀ out ∈ POSIX.generations N W precision fuel alloc startArray,
        out.1 (r * N + c) = startArray (r * N + c)) := by
  have he := Spec.isEdge_of_row_col N r c hc hedge
  have hlt : r * N + c < N * N := by
    have : (r + 1) * N ≤ N * N := Nat.mul_le_mul_right N hr
    rw [Nat.add_mul, Nat.one_mul] at this
    omega
  exact ⟨MPI.generations_edge N W precision hW _ he,
    POSIX.solveGenerations_edge N W precision hW _ hlt he⟩

theorem boundary_invariance_witness :
    1 ≤ 2 ∧ 3 < 4 ∧ 1 < 4 ∧ (3 = 0 ∨ 3 = 4 - 1 ∨ 1 = 0 ∨ 1 = 4 - 1) ∧
    ((∀ fuel (w : Nat → MPI.Proc), ∀ w1 ∈ MPI.generations 4 2 (1 / 16) fuel w,
      (w1 0).result (3 * 4 + 1) = (w 0).result (3 * 4 + 1)) ∧
    (∀ fuel (alloc : Nat → Buf) (startArray : Buf),
      ∀ out ∈ POSIX.generations 4 2 (1 / 16) fuel alloc startArray,
        out.1 (3 * 4 + 1) = startArray (3 * 4 + 1))) :=
  ⟨by decide, by decide, by decide, by decide,
    boundary_invariance 4 2 (1 / 16) (by decide) 3 1 (by decide) (by decide) (by decide)⟩

end Boundary

section HaloClaim

/-- C7 (halo sufficiency). For `1 ≤ W ≤ N * N` and every processor `p < W` (so every
non-coordinator) with assignment `(start, count)`: the rows rank 0 computes for `p` are the rows
`p` computes for itself, they are `max(0, start/N - 1)` and `min(N-1, (start+count-1)/N + 1)`
(the first also when read over the integers), the send and receive lengths agree, the range is
non-empty and inside rows `0..N-1`, and it holds the row of every index `i` of the chunk and,
when `i` is not on the edge, the rows of `i - N`, `i + N`, `i - 1`, `i + 1`, which are the cells
`(row-1, col)`, `(row+1, col)`, `(row, col-1)`, `(row, col+1)` the kernel reads; every such cell
lies in the block of cells that is sent. -/
theorem halo_sufficiency (N W p : Nat) (hW : 1 ≤ W) (hWN : W ≤ N * N) (hp : p < W) :
    (MPI.sendStartingRow N W p = MPI.recvStartingRow N W p ∧
      MPI.sendEndRow N W p = MPI.recvEndRow N W p) ∧
    (MPI.sendStartingRow N W p = max 0 (MPI.startPosition N W p / N - 1) ∧
      ((MPI.sendStartingRow N W p : Nat) : Int)
        = max 0 (((MPI.startPosition N W p / N : Nat) : Int) - 1) ∧
      MPI.sendEndRow N W p
        = min (N - 1) ((MPI.startPosition N W p + MPI.chunkSize N W p - 1) / N + 1)) ∧
    ((MPI.sendEndRow N W p - MPI.sendStartingRow N W p + 1) * N
      = (MPI.recvEndRow N W p - MPI.recvStartingRow N W p + 1) * N) ∧
    (MPI.sendStartingRow N W p ≤ MPI.sendEndRow N W p ∧ MPI.sendEndRow N W p ≤ N - 1) ∧
    (∀ i, MPI.startPosition N W p ≤ i → i < MPI.startPosition N W p + MPI.chunkSize N W p →
      (MPI.sendStartingRow N W p ≤ i / N ∧ i / N ≤ MPI.sendEndRow N W p) ∧
      (¬ Spec.IsEdge N i →
        ((i / N - 1) * N + i % N = i - N ∧ (i / N + 1) * N + i % N = i + N ∧
          i / N * N + (i % N - 1) = i - 1 ∧ i / N * N + (i % N + 1) = i + 1) ∧
        ∀ x, x = i - N ∨ x = i + N ∨ x = i - 1 ∨ x = i + 1 →
          (MPI.sendStartingRow N W p ≤ x / N ∧ x / N ≤ MPI.sendEndRow N W p) ∧
          (MPI.sendStartingRow N W p * N ≤ x ∧
            x < MPI.sendStartingRow N W p * N
              + (MPI.sendEndRow N W p - MPI.sendStartingRow N W p + 1) * N))) := by
  have hcount := MPI.chunkSize_pos N W p hW hWN hp
  have hN : 0 < N := by
    rcases Nat.eq_zero_or_pos N with h | h
    · subst h; simp at hWN; omega
    · exact h
  have hown := MPI.halo_rows N W p (MPI.startPosition N W p) hp (Nat.le_refl _) (by omega)
  refine ⟨⟨rfl, rfl⟩, ⟨rfl, ?_, rfl⟩, rfl, ⟨by omega, ?_⟩, ?_⟩
  · simp only [MPI.sendStartingRow]
    generalize MPI.startPosition N W p / N = a
    omega
  · simp only [MPI.sendEndRow]; omega
  · intro i h0 h1
    obtain ⟨r12, r3⟩ := MPI.halo_rows N W p i hp h0 h1
    refine ⟨r12, fun he => ⟨Spec.neighbours N i he, ?_⟩⟩
    obtain ⟨q1, q2, q3, q4⟩ := Spec.neighbour_rows N i he
    obtain ⟨s1, s2⟩ := r3 he
    intro x hx
    have hrows : MPI.sendStartingRow N W p ≤ x / N ∧ x / N ≤ MPI.sendEndRow N W p := by
      rcases hx with hx | hx | hx | hx <;> subst hx
      · rw [q1]; omega
      · rw [q2]; omega
      · rw [q3]; omega
      · rw [q4]; omega
    exact ⟨hrows, MPI.row_in_block N _ _ x hN hrows.1 hrows.2⟩

theorem halo_sufficiency_witness :
    1 ≤ 3 ∧ 3 ≤ 4 * 4 ∧ 1 < 3 ∧
    ((MPI.sendStartingRow 4 3 1 = MPI.recvStartingRow 4 3 1 ∧
      MPI.sendEndRow 4 3 1 = MPI.recvEndRow 4 3 1) ∧
    (MPI.sendStartingRow 4 3 1 = max 0 (MPI.startPosition 4 3 1 / 4 - 1) ∧
      ((MPI.sendStartingRow 4 3 1 : Nat) : Int)
        = max 0 (((MPI.startPosition 4 3 1 / 4 : Nat) : Int) - 1) ∧
      MPI.sendEndRow 4 3 1
        = min (4 - 1) ((MPI.startPosition 4 3 1 + MPI.chunkSize 4 3 1 - 1) / 4 + 1)) ∧
    ((MPI.sendEndRow 4 3 1 - MPI.sendStartingRow 4 3 1 + 1) * 4
      = (MPI.recvEndRow 4 3 1 - MPI.recvStartingRow 4 3 1 + 1) * 4) ∧
    (MPI.sendStartingRow 4 3 1 ≤ MPI.sendEndRow 4 3 1 ∧ MPI.sendEndRow 4 3 1 ≤ 4 - 1) ∧
    (∀ i, MPI.startPosition 4 3 1 ≤ i → i < MPI.startPosition 4 3 1 + MPI.chunkSize 4 3 1 →
      (MPI.sendStartingRow 4 3 1 ≤ i / 4 ∧ i / 4 ≤ MPI.sendEndRow 4 3 1) ∧
      (¬ Spec.IsEdge 4 i →
        ((i / 4 - 1) * 4 + i % 4 = i - 4 ∧ (i / 4 + 1) * 4 + i % 4 = i + 4 ∧
          i / 4 * 4 + (i % 4 - 1) = i - 1 ∧ i / 4 * 4 + (i % 4 + 1) = i + 1) ∧
        ∀ x, x = i - 4 ∨ x = i + 4 ∨ x = i - 1 ∨ x = i + 1 →
          (MPI.sendStartingRow 4 3 1 ≤ x / 4 ∧ x / 4 ≤ MPI.sendEndRow 4 3 1) ∧
          (MPI.sendStartingRow 4 3 1 * 4 ≤ x ∧
            x < MPI.sendStartingRow 4 3 1 * 4
              + (MPI.sendEndRow 4 3 1 - MPI.sendStartingRow 4 3 1 + 1) * 4)))) :=
  ⟨by decide, by decide, by decide,
    halo_sufficiency 4 3 1 (by decide) (by decide) (by decide)⟩

end HaloClaim

section Decomposition

/-- What a generation of `run` leaves on rank 0 depends on the worker count and on the state
only through the authoritative buffer. -/
theorem MPI.generation_congr (N W1 W2 : Nat) (prec : ℚ) (w1 w2 : Nat → MPI.Proc)
    (h1 : 1 ≤ W1) (h2 : 1 ≤ W2) (hsame : (w1 0).result = (w2 0).result) :
    (MPI.generation N W1 prec w1 0).result = (MPI.generation N W2 prec w2 0).result ∧
    (MPI.generation N W1 prec w1 0).changed = (MPI.generation N W2 prec w2 0).changed := by
  constructor
  · funext j
    rw [MPI.generation_result N W1 prec w1 h1, MPI.generation_result N W2 prec w2 h2, hsame]
  · rw [Bool.eq_iff_iff, MPI.generation_changed N W1 prec w1 h1 0 (by omega),
      MPI.generation_changed N W2 prec w2 h2 0 (by omega), hsame]

theorem MPI.run_congr (N W1 W2 : Nat) (prec : ℚ) (h1 : 1 ≤ W1) (h2 : 1 ≤ W2) :
    ∀ fuel (w1 w2 : Nat → MPI.Proc), (w1 0).result = (w2 0).result →
      (MPI.run N W1 prec fuel w1).map (fun r => ((r.1 0).result, r.2))
        = (MPI.run N W2 prec fuel w2).map (fun r => ((r.1 0).result, r.2)) := by
  intro fuel
  induction fuel with
  | zero => intro w1 w2 _; rfl
  | succ n ih =>
    intro w1 w2 hsame
    obtain ⟨hr, hc⟩ := MPI.generation_congr N W1 W2 prec w1 w2 h1 h2 hsame
    simp only [MPI.run]
    rw [hc]
    by_cases hch : (MPI.generation N W2 prec w2 0).changed = true
    · simp only [hch, if_true, Option.map_map]
      have := ih _ _ hr
      have e : ∀ o : Option ((Nat → MPI.Proc) × Nat),
          o.map ((fun r : (Nat → MPI.Proc) × Nat => ((r.1 0).result, r.2)) ∘
            (fun r : (Nat → MPI.Proc) × Nat => (r.1, r.2 + 1)))
          = (o.map (fun r => ((r.1 0).result, r.2))).map (fun q => (q.1, q.2 + 1)) := by
        intro o; cases o <;> rfl
      rw [e, e, this]
    · simp [hch, hr]

/-- C8 (decomposition independence over the worker count). For every worker count `W ≥ 1`
(in particular `1 ≤ W ≤ N * N`), one generation of `run` with `W` processors leaves on rank 0
the same authoritative buffer as the run with one processor, every rank ends the generation
with the same combined `changed`, which is the one of the single-processor run; hence the loop
stops after the same number of generations with the same authoritative buffer (or, with the
same fuel, both are still running). -/
theorem decomposition_independence (N W : Nat) (precision : ℚ) (w : Nat → MPI.Proc)
    (hW : 1 ≤ W) :
    (MPI.generation N W precision w 0).result = (MPI.generation N 1 precision w 0).result ∧
    (∀ rank, rank < W →
      (MPI.generation N W precision w rank).changed
        = (MPI.generation N 1 precision w 0).changed) ∧
    (∀ fuel,
      (MPI.run N W precision fuel w).map (fun r => ((r.1 0).result, r.2))
        = (MPI.run N 1 precision fuel w).map (fun r => ((r.1 0).result, r.2))) := by
  refine ⟨(MPI.generation_congr N W 1 precision w w hW (by decide) rfl).1, ?_, ?_⟩
  · intro rank hr
    rw [Bool.eq_iff_iff, MPI.generation_changed N W precision w hW rank hr,
      MPI.generation_changed N 1 precision w (by decide) 0 (by decide)]
  · intro fuel
    exact MPI.run_congr N W 1 precision hW (by decide) fuel w w rfl

theorem decomposition_independence_witness :
    1 ≤ 3 ∧
    ((MPI.generation 4 3 (1 / 16) (Example.world Example.grid4) 0).result
      = (MPI.generation 4 1 (1 / 16) (Example.world Example.grid4) 0).result ∧
    (∀ rank, rank < 3 →
      (MPI.generation 4 3 (1 / 16) (Example.world Example.grid4) rank).changed
        = (MPI.generation 4 1 (1 / 16) (Example.world Example.grid4) 0).changed) ∧
    (∀ fuel,
      (MPI.run 4 3 (1 / 16) fuel (Example.world Example.grid4)).map
          (fun r => ((r.1 0).result, r.2))
        = (MPI.run 4 1 (1 / 16) fuel (Example.world Example.grid4)).map
          (fun r => ((r.1 0).result, r.2)))) :=
  ⟨by decide, decomposition_independence 4 3 (1 / 16) (Example.world Example.grid4) (by decide)⟩

end Decomposition

section Realizations

/-- Away from the edge the four neighbours of a cell of the grid are cells of the grid. -/
theorem Spec.neighbours_lt (N i : Nat) (hi : i < N * N) (h : ¬ Spec.IsEdge N i) :
    i - N < N * N ∧ i + N < N * N ∧ i - 1 < N * N ∧ i + 1 < N * N := by
  have hN := Spec.pos_of_not_edge N i h
  obtain ⟨_, q2, _, q4⟩ := Spec.neighbour_rows N i h
  have hrow : i / N < N := (Nat.div_lt_iff_lt_mul hN).2 hi
  simp only [Spec.IsEdge, not_or] at h
  have a2 : i + N < N * N := (Nat.div_lt_iff_lt_mul hN).1 (by rw [q2]; omega)
  have a4 : i + 1 < N * N := (Nat.div_lt_iff_lt_mul hN).1 (by rw [q4]; omega)
  omega

/-- The stencil of a cell of the grid reads only cells of the grid. -/
theorem Spec.stencil_congr (N : Nat) (a b : Buf) (hab : ∀ j, j < N * N → a j = b j)
    (i : Nat) (hi : i < N * N) : Spec.stencil N a i = Spec.stencil N b i := by
  by_cases h : Spec.IsEdge N i
  · simp only [Spec.stencil, h, if_true, hab i hi]
  · obtain ⟨l1, l2, l3, l4⟩ := Spec.neighbours_lt N i hi h
    simp only [Spec.stencil, h, if_false, hab _ l1, hab _ l2, hab _ l3, hab _ l4]

theorem MPI.run_count_pos (N W : Nat) (prec : ℚ) :
    ∀ fuel (w w1 : Nat → MPI.Proc) (n : Nat), MPI.run N W prec fuel w = some (w1, n) → 1 ≤ n := by
  intro fuel
  induction fuel with
  | zero => intro w w1 n h; simp [MPI.run] at h
  | succ k ih =>
    intro w w1 n h
    simp only [MPI.run] at h
    split_ifs at h
    · simp only [Option.map_eq_some', Prod.mk.injEq] at h
      obtain ⟨r, _, _, h3⟩ := h
      omega
    · simp only [Option.some.injEq, Prod.mk.injEq] at h
      omega

theorem POSIX.solve_count_pos (N W : Nat) (prec : ℚ) :
    ∀ fuel (alloc : Nat → Buf) (cur g : Buf) (n : Nat),
      POSIX.solve N W prec fuel alloc cur = some (g, n) → 1 ≤ n := by
  intro fuel
  induction fuel with
  | zero => intro alloc cur g n h; simp [POSIX.solve] at h
  | succ k ih =>
    intro alloc cur g n h
    simp only [POSIX.solve] at h
    split_ifs at h
    · simp only [Option.map_eq_some', Prod.mk.injEq] at h
      obtain ⟨r, _, _, h3⟩ := h
      omega
    · simp only [Option.some.injEq, Prod.mk.injEq] at h
      omega

/-- One generation of `run` and one generation of `solve` write the same grid. -/
theorem POSIX.generation_agrees (N W1 W2 : Nat) (prec : ℚ) (w : Nat → MPI.Proc)
    (fresh cur : Buf) (h1 : 1 ≤ W1) (h2 : 1 ≤ W2)
    (hsame : ∀ j, j < N * N → (w 0).result j = cur j) (j : Nat) (hj : j < N * N) :
    (MPI.generation N W1 prec w 0).result j = (POSIX.generation N W2 prec fresh cur).1 j := by
  rw [MPI.generation_result N W1 prec w h1, POSIX.solveGeneration_result N W2 prec _ _ h2,
    if_pos hj, if_pos hj]
  exact Spec.stencil_congr N _ _ hsame j hj

theorem POSIX.runs_agree (N W1 W2 : Nat) (prec : ℚ) (h1 : 1 ≤ W1) (h2 : 1 ≤ W2) :
    ∀ fuel1 fuel2 (w : Nat → MPI.Proc) (alloc : Nat → Buf) (cur : Buf)
      (w1 : Nat → MPI.Proc) (g : Buf) (n : Nat),
      (∀ j, j < N * N → (w 0).result j = cur j) →
      MPI.run N W1 prec fuel1 w = some (w1, n) →
      POSIX.solve N W2 prec fuel2 alloc cur = some (g, n) →
      ∀ j, j < N * N → (w1 0).result j = g j := by
  intro fuel1
  induction fuel1 with
  | zero => intro fuel2 w alloc cur w1 g n _ h; simp [MPI.run] at h
  | succ k ih =>
    intro fuel2 w alloc cur w1 g n hsame hm hp
    cases fuel2 with
    | zero => simp [POSIX.solve] at hp
    | succ k2 =>
      have hstep := POSIX.generation_agrees N W1 W2 prec w (alloc 0) cur h1 h2 hsame
      simp only [MPI.run] at hm
      simp only [POSIX.solve] at hp
      split_ifs at hm with c1
      · simp only [Option.map_eq_some', Prod.mk.injEq] at hm
        obtain ⟨r, hr, hr1, hr2⟩ := hm
        split_ifs at hp with c2
        · simp only [Option.map_eq_some', Prod.mk.injEq] at hp
          obtain ⟨q, hq, hq1, hq2⟩ := hp
          have hn : q.2 = r.2 := by omega
          have hq' : POSIX.solve N W2 prec k2 (fun i => alloc (i + 1))
              (POSIX.generation N W2 prec (alloc 0) cur).1 = some (q.1, r.2) := by
            rw [hq, ← hn]
          have hr' : MPI.run N W1 prec k (MPI.generation N W1 prec w) = some (r.1, r.2) := hr
          intro j hj
          rw [← hr1, ← hq1]
          exact ih k2 _ _ _ _ _ _ hstep hr' hq' j hj
        · simp only [Option.some.injEq, Prod.mk.injEq] at hp
          have := MPI.run_count_pos N W1 prec k _ r.1 r.2 hr
          omega
      · simp only [Option.some.injEq, Prod.mk.injEq] at hm
        obtain ⟨hw, hn⟩ := hm
        split_ifs at hp with c2
        · simp only [Option.map_eq_some', Prod.mk.injEq] at hp
          obtain ⟨q, hq, _, hq2⟩ := hp
          have := POSIX.solve_count_pos N W2 prec k2 _ _ q.1 q.2 hq
          omega
        · simp only [Option.some.injEq, Prod.mk.injEq] at hp
          intro j hj
          rw [← hw, ← hp.1]
          exact hstep j hj

end Realizations

section RealizationClaim

theorem Example.grid4_first (fresh : Buf) :
    (POSIX.generation 4 1 (1 / 2) fresh Example.grid4).1
      = fun j => if j < 16 then Spec.stencil 4 Example.grid4 j else fresh j := by
  funext j
  rw [POSIX.solveGeneration_result 4 1 _ _ _ (by decide)]

/-- C9 (realization independence), refuted on the 4 × 4 grid with edge 1 and interior 0 and
precision 1/2: `run` stops after one generation with interior cell 5 equal to 1/2 (its change
1/2 is not `> 1/2`), `solve` performs a second generation (the change 1/2 is `>= 1/2`) and
stops with cell 5 equal to 3/4. -/
theorem realization_independence_counterexample :
    (MPI.run 4 1 (1 / 2) 3 (Example.world Example.grid4)).map
        (fun r => ((r.1 0).result 5, r.2)) = some (1 / 2, 1) ∧
    (POSIX.solve 4 1 (1 / 2) 3 (fun _ => Example.zeros) Example.grid4).map
        (fun r => (r.1 5, r.2)) = some (3 / 4, 2) ∧
    (1 / 2 : ℚ) ≠ 3 / 4 := by
  refine ⟨?_, ?_, by norm_num⟩
  · have hflag : (MPI.generation 4 1 (1 / 2) (Example.world Example.grid4) 0).changed
        = false := by
      rw [Bool.eq_false_iff, Ne, MPI.generation_changed 4 1 _ _ (by decide) 0 (by decide)]
      rintro ⟨j, hj, h2, h3⟩
      have hj16 : j < 16 := hj
      interval_cases j <;> first
        | exact h2 (by decide)
        | (norm_num [Spec.stencil, Spec.IsEdge, Example.grid4, Example.world, abs_le,
            lt_abs] at h3)
    have hval : (MPI.generation 4 1 (1 / 2) (Example.world Example.grid4) 0).result 5
        = 1 / 2 := by
      rw [MPI.generation_result 4 1 _ _ (by decide)]
      norm_num [Spec.stencil, Spec.IsEdge, Example.grid4, Example.world]
    simp only [MPI.run, hflag, Bool.false_eq_true, if_false, Option.map_some', hval]
  · have h1 : (POSIX.generation 4 1 (1 / 2) Example.zeros Example.grid4).2 = true := by
      rw [POSIX.solveGeneration_changed 4 1 _ _ _ (by decide)]
      refine ⟨5, by decide, by decide, ?_⟩
      norm_num [Spec.stencil, Spec.IsEdge, Example.grid4]
    have h2 : (POSIX.generation 4 1 (1 / 2) Example.zeros
        (POSIX.generation 4 1 (1 / 2) Example.zeros Example.grid4).1).2 = false := by
      rw [Bool.eq_false_iff, Ne, POSIX.solveGeneration_changed 4 1 _ _ _ (by decide),
        Example.grid4_first]
      rintro ⟨j, hj, h2, h3⟩
      have hj16 : j < 16 := hj
      interval_cases j <;> first
        | exact h2 (by decide)
        | (norm_num [Spec.stencil, Spec.IsEdge, Example.grid4] at h3)
    have hval : (POSIX.generation 4 1 (1 / 2) Example.zeros
        (POSIX.generation 4 1 (1 / 2) Example.zeros Example.grid4).1).1 5 = 3 / 4 := by
      rw [POSIX.solveGeneration_result 4 1 _ _ _ (by decide), Example.grid4_first]
      norm_num [Spec.stencil, Spec.IsEdge, Example.grid4]
    simp only [POSIX.solve, h1, h2, Bool.false_eq_true, if_true, if_false, Option.map_some',
      hval]

/-- C9 as amended. For all worker counts `W1, W2 ≥ 1`, when `run` and `solve` start from grids
that agree on the `N * N` cells and both stop after the same number `n` of generations, the
authoritative buffer of `run` and the final `startArray` of `solve` agree on every cell of the
grid. -/
theorem realization_agreement (N W1 W2 : Nat) (precision : ℚ) (hW1 : 1 ≤ W1) (hW2 : 1 ≤ W2)
    (fuel1 fuel2 : Nat) (w : Nat → MPI.Proc) (alloc : Nat → Buf) (startArray : Buf)
    (w1 : Nat → MPI.Proc) (g : Buf) (n : Nat)
    (hsame : ∀ j, j < N * N → (w 0).result j = startArray j)
    (hrun : MPI.run N W1 precision fuel1 w = some (w1, n))
    (hsolve : POSIX.solve N W2 precision fuel2 alloc startArray = some (g, n)) :
    ∀ j, j < N * N → (w1 0).result j = g j :=
  POSIX.runs_agree N W1 W2 precision hW1 hW2 fuel1 fuel2 w alloc startArray w1 g n
    hsame hrun hsolve

end RealizationClaim

section RealizationWitness

theorem Example.grid3_mpi_first :
    (MPI.generation 3 2 (1 / 2) (Example.world Example.grid3) 0).result
      = fun j => if j < 9 then Spec.stencil 3 Example.grid3 j else Example.grid3 j := by
  funext j
  rw [MPI.generation_result 3 2 _ _ (by decide)]
  rfl

theorem Example.grid3_posix_first :
    (POSIX.generation 3 3 (1 / 2) Example.zeros Example.grid3).1
      = fun j => if j < 9 then Spec.stencil 3 Example.grid3 j else Example.zeros j := by
  funext j
  rw [POSIX.solveGeneration_result 3 3 _ _ _ (by decide)]

theorem Example.grid3_mpi_run :
    MPI.run 3 2 (1 / 2) 3 (Example.world Example.grid3)
      = some (MPI.generation 3 2 (1 / 2)
          (MPI.generation 3 2 (1 / 2) (Example.world Example.grid3)), 2) := by
  have h1 : (MPI.generation 3 2 (1 / 2) (Example.world Example.grid3) 0).changed = true := by
    rw [MPI.generation_changed 3 2 _ _ (by decide) 0 (by decide)]
    refine ⟨4, by decide, by decide, ?_⟩
    norm_num [Spec.stencil, Spec.IsEdge, Example.grid3, Example.world]
  have h2 : (MPI.generation 3 2 (1 / 2)
      (MPI.generation 3 2 (1 / 2) (Example.world Example.grid3)) 0).changed = false := by
    rw [Bool.eq_false_iff, Ne, MPI.generation_changed 3 2 _ _ (by decide) 0 (by decide),
      Example.grid3_mpi_first]
    rintro ⟨j, hj, h2, h3⟩
    have hj9 : j < 9 := hj
    interval_cases j <;> first
      | exact h2 (by decide)
      | (norm_num [Spec.stencil, Spec.IsEdge, Example.grid3] at h3)
  simp only [MPI.run, h1, h2, Bool.false_eq_true, if_true, if_false, Option.map_some']

theorem Example.grid3_posix_solve :
    POSIX.solve 3 3 (1 / 2) 3 (fun _ => Example.zeros) Example.grid3
      = some ((POSIX.generation 3 3 (1 / 2) Example.zeros
          (POSIX.generation 3 3 (1 / 2) Example.zeros Example.grid3).1).1, 2) := by
  have h1 : (POSIX.generation 3 3 (1 / 2) Example.zeros Example.grid3).2 = true := by
    rw [POSIX.solveGeneration_changed 3 3 _ _ _ (by decide)]
    refine ⟨4, by decide, by decide, ?_⟩
    norm_num [Spec.stencil, Spec.IsEdge, Example.grid3]
  have h2 : (POSIX.generation 3 3 (1 / 2) Example.zeros
      (POSIX.generation 3 3 (1 / 2) Example.zeros Example.grid3).1).2 = false := by
    rw [Bool.eq_false_iff, Ne, POSIX.solveGeneration_changed 3 3 _ _ _ (by decide),
      Example.grid3_posix_first]
    rintro ⟨j, hj, h2, h3⟩
    have hj9 : j < 9 := hj
    interval_cases j <;> first
      | exact h2 (by decide)
      | (norm_num [Spec.stencil, Spec.IsEdge, Example.grid3] at h3)
  simp only [POSIX.solve, h1, h2, Bool.false_eq_true, if_true, if_false, Option.map_some']

theorem realization_agreement_witness :
    1 ≤ 2 ∧ 1 ≤ 3 ∧
    (∀ j, j < 3 * 3 → (Example.world Example.grid3 0).result j = Example.grid3 j) ∧
    MPI.run 3 2 (1 / 2) 3 (Example.world Example.grid3)
      = some (MPI.generation 3 2 (1 / 2)
          (MPI.generation 3 2 (1 / 2) (Example.world Example.grid3)), 2) ∧
    POSIX.solve 3 3 (1 / 2) 3 (fun _ => Example.zeros) Example.grid3
      = some ((POSIX.generation 3 3 (1 / 2) Example.zeros
          (POSIX.generation 3 3 (1 / 2) Example.zeros Example.grid3).1).1, 2) ∧
    (∀ j, j < 3 * 3 →
      (MPI.generation 3 2 (1 / 2)
          (MPI.generation 3 2 (1 / 2) (Example.world Example.grid3)) 0).result j
        = (POSIX.generation 3 3 (1 / 2) Example.zeros
          (POSIX.generation 3 3 (1 / 2) Example.zeros Example.grid3).1).1 j) :=
  ⟨by decide, by decide, fun _ _ => rfl, Example.grid3_mpi_run, Example.grid3_posix_solve,
    realization_agreement 3 2 3 (1 / 2) (by decide) (by decide) 3 3
      (Example.world Example.grid3) (fun _ => Example.zeros) Example.grid3 _ _ 2
      (fun _ _ => rfl) Example.grid3_mpi_run Example.grid3_posix_solve⟩

end RealizationWitness

section FixedPoint

end FixedPoint

section Scenario1

theorem Example.grid3_first (W : Nat) (prec : ℚ) (hW : 1 ≤ W) :
    (MPI.generation 3 W prec (Example.world Example.grid3) 0).result
      = fun j => if j < 9 then Spec.stencil 3 Example.grid3 j else Example.grid3 j := by
  funext j
  rw [MPI.generation_result 3 W _ _ hW]
  rfl

theorem Example.grid3_first_changed (W : Nat) (hW : 1 ≤ W) :
    (MPI.generation 3 W (1 / 10000) (Example.world Example.grid3) 0).changed = true := by
  rw [MPI.generation_changed 3 W _ _ hW 0 (by omega)]
  refine ⟨4, by decide, by decide, ?_⟩
  norm_num [Spec.stencil, Spec.IsEdge, Example.grid3, Example.world]

theorem Example.grid3_second_changed (W : Nat) (hW : 1 ≤ W) :
    (MPI.generation 3 W (1 / 10000)
      (MPI.generation 3 W (1 / 10000) (Example.world Example.grid3)) 0).changed = false := by
  rw [Bool.eq_false_iff, Ne, MPI.generation_changed 3 W _ _ hW 0 (by omega),
    Example.grid3_first W _ hW]
  rintro ⟨j, hj, h2, h3⟩
  have hj9 : j < 9 := hj
  interval_cases j <;> first
    | exact h2 (by decide)
    | (norm_num [Spec.stencil, Spec.IsEdge, Example.grid3] at h3)

theorem Example.grid3_second (W : Nat) (hW : 1 ≤ W) (j : Nat) (hj : j < 9) :
    (MPI.generation 3 W (1 / 10000)
      (MPI.generation 3 W (1 / 10000) (Example.world Example.grid3)) 0).result j = 1 := by
  rw [MPI.generation_result 3 W _ _ hW, Example.grid3_first W _ hW]
  interval_cases j <;> norm_num [Spec.stencil, Spec.IsEdge, Example.grid3]

/-- C12 (scenario 1), refuted where it says the first check finds `changed` false: on
`[[1,1,1],[1,0,1],[1,1,1]]` with precision 0.0001 the first generation of `run` moves the
interior cell from 0 to 1, a change of `1 > 0.0001`, so the combined flag is true. -/
theorem scenario1_counterexample :
    (MPI.generation 3 1 (1 / 10000) (Example.world Example.grid3) 0).result 4 = 1 ∧
    Example.grid3 4 = 0 ∧
    (MPI.generation 3 1 (1 / 10000) (Example.world Example.grid3) 0).changed = true := by
  refine ⟨?_, by simp [Example.grid3], Example.grid3_first_changed 1 (by decide)⟩
  rw [MPI.generation_result 3 1 _ _ (by decide)]
  norm_num [Spec.stencil, Spec.IsEdge, Example.grid3, Example.world]

/-- C12 as amended. On `[[1,1,1],[1,0,1],[1,1,1]]` with precision 0.0001 and any worker count
`W ≥ 1`: the first generation of `run` sets the interior cell to `(1+1+1+1)/4 = 1` and ends
with `changed` true; the second generation leaves the grid as it is and ends with `changed`
false; so the loop stops after exactly two generations, and the final grid is all 1s. -/
theorem scenario1 (W fuel : Nat) (hW : 1 ≤ W) (hfuel : 2 ≤ fuel) :
    (MPI.generation 3 W (1 / 10000) (Example.world Example.grid3) 0).result 4
      = (1 + 1 + 1 + 1) / 4 ∧
    (MPI.generation 3 W (1 / 10000) (Example.world Example.grid3) 0).changed = true ∧
    (MPI.generation 3 W (1 / 10000)
      (MPI.generation 3 W (1 / 10000) (Example.world Example.grid3)) 0).changed = false ∧
    MPI.run 3 W (1 / 10000) fuel (Example.world Example.grid3)
      = some (MPI.generation 3 W (1 / 10000)
          (MPI.generation 3 W (1 / 10000) (Example.world Example.grid3)), 2) ∧
    (∀ j, j < 3 * 3 →
      (MPI.generation 3 W (1 / 10000)
        (MPI.generation 3 W (1 / 10000) (Example.world Example.grid3)) 0).result j = 1) := by
  have h1 := Example.grid3_first_changed W hW
  have h2 := Example.grid3_second_changed W hW
  refine ⟨?_, h1, h2, ?_, fun j hj => Example.grid3_second W hW j hj⟩
  · rw [MPI.generation_result 3 W _ _ hW]
    norm_num [Spec.stencil, Spec.IsEdge, Example.grid3, Example.world]
  · obtain ⟨f, rfl⟩ : ∃ f, fuel = f + 2 := ⟨fuel - 2, by omega⟩
    simp only [MPI.run, h1, h2, Bool.false_eq_true, if_true, if_false, Option.map_some']

theorem scenario1_witness :
    1 ≤ 2 ∧ 2 ≤ 5 ∧
    ((MPI.generation 3 2 (1 / 10000) (Example.world Example.grid3) 0).result 4
      = (1 + 1 + 1 + 1) / 4 ∧
    (MPI.generation 3 2 (1 / 10000) (Example.world Example.grid3) 0).changed = true ∧
    (MPI.generation 3 2 (1 / 10000)
      (MPI.generation 3 2 (1 / 10000) (Example.world Example.grid3)) 0).changed = false ∧
    MPI.run 3 2 (1 / 10000) 5 (Example.world Example.grid3)
      = some (MPI.generation 3 2 (1 / 10000)
          (MPI.generation 3 2 (1 / 10000) (Example.world Example.grid3)), 2) ∧
    (∀ j, j < 3 * 3 →
      (MPI.generation 3 2 (1 / 10000)
        (MPI.generation 3 2 (1 / 10000) (Example.world Example.grid3)) 0).result j = 1)) :=
  ⟨by decide, by decide, scenario1 2 5 (by decide) (by decide)⟩

end Scenario1

section Scenario2

theorem Example.grid4_eq : Example.grid4 = Example.grid4x 0 := rfl

/-- One generation of `run` on the symmetric 4 × 4 grid: the interior value `x` becomes
`(1 + x) / 2`. -/
theorem Example.grid4x_result (W : Nat) (prec x : ℚ) (w : Nat → MPI.Proc) (hW : 1 ≤ W)
    (hw : (w 0).result = Example.grid4x x) :
    (MPI.generation 4 W prec w 0).result = Example.grid4x ((1 + x) / 2) := by
  funext j
  rw [MPI.generation_result 4 W prec w hW, hw]
  by_cases hj : j < 4 * 4
  · rw [if_pos hj]
    have hj16 : j < 16 := hj
    interval_cases j <;> norm_num [Spec.stencil, Spec.IsEdge, Example.grid4x] <;> ring
  · rw [if_neg hj]
    have h5 : ¬ (j = 5 ∨ j = 6 ∨ j = 9 ∨ j = 10) := by omega
    simp [Example.grid4x, h5]

theorem Example.grid4x_changed (W : Nat) (prec x : ℚ) (w : Nat → MPI.Proc) (hW : 1 ≤ W)
    (hw : (w 0).result = Example.grid4x x) :
    (MPI.generation 4 W prec w 0).changed = true ↔ |(1 + x) / 2 - x| > prec := by
  rw [MPI.generation_changed 4 W prec w hW 0 (by omega), hw]
  have e : (1 + x + 1 + x) / 4 = (1 + x) / 2 := by ring
  constructor
  · rintro ⟨j, hj, h2, h3⟩
    have hj16 : j < 16 := hj
    interval_cases j <;> first
      | exact absurd (by decide) h2
      | (norm_num [Spec.stencil, Spec.IsEdge, Example.grid4x] at h3
         first
           | (rw [e] at h3; exact h3)
           | (rw [show (1 + x + x + 1) / 4 = (1 + x) / 2 by ring] at h3; exact h3)
           | (rw [show (x + 1 + 1 + x) / 4 = (1 + x) / 2 by ring] at h3; exact h3)
           | (rw [show (x + 1 + x + 1) / 4 = (1 + x) / 2 by ring] at h3; exact h3))
  · intro h
    refine ⟨5, by decide, by decide, ?_⟩
    norm_num [Spec.stencil, Spec.IsEdge, Example.grid4x]
    rw [e]; exact h

theorem Example.half_step (k : Nat) :
    (1 + (1 - 1 / 2 ^ k : ℚ)) / 2 = 1 - 1 / 2 ^ (k + 1) := by
  rw [pow_succ]; field_simp; ring

theorem Example.half_delta (k : Nat) :
    |(1 + (1 - 1 / 2 ^ k : ℚ)) / 2 - (1 - 1 / 2 ^ k)| = 1 / 2 ^ (k + 1) := by
  have h : (1 + (1 - 1 / 2 ^ k : ℚ)) / 2 - (1 - 1 / 2 ^ k) = 1 / 2 ^ (k + 1) := by
    rw [pow_succ]; field_simp; ring
  rw [h, abs_of_pos (by positivity)]

theorem Example.delta_large (k : Nat) (hk : k + 1 ≤ 13) :
    (1 / 2 ^ (k + 1) : ℚ) > 1 / 10000 := by
  have h1 : (2 : ℚ) ^ (k + 1) ≤ 2 ^ 13 := pow_le_pow_right₀ (by norm_num) hk
  have h2 : (1 / 2 ^ 13 : ℚ) ≤ 1 / 2 ^ (k + 1) :=
    one_div_le_one_div_of_le (by positivity) h1
  have h3 : (1 / 10000 : ℚ) < 1 / 2 ^ 13 := by norm_num
  exact lt_of_lt_of_le h3 h2

/-- From interior value `1 - 2^-k` the loop of `run` performs the `14 - k` generations up to
interior value `1 - 2^-14`. -/
theorem Example.grid4x_run (W : Nat) (hW : 1 ≤ W) :
    ∀ n k fuel (w : Nat → MPI.Proc), k + n = 13 → n + 1 ≤ fuel →
      (w 0).result = Example.grid4x (1 - 1 / 2 ^ k) →
      ∃ w1, MPI.run 4 W (1 / 10000) fuel w = some (w1, n + 1) ∧
        (w1 0).result = Example.grid4x (1 - 1 / 2 ^ 14) := by
  intro n
  induction n with
  | zero =>
    intro k fuel w hk hfuel hw
    have hk13 : k = 13 := by omega
    subst hk13
    obtain ⟨f, rfl⟩ : ∃ f, fuel = f + 1 := ⟨fuel - 1, by omega⟩
    have hres := Example.grid4x_result W (1 / 10000) _ w hW hw
    rw [Example.half_step] at hres
    have hflag : (MPI.generation 4 W (1 / 10000) w 0).changed = false := by
      rw [Bool.eq_false_iff, Ne, Example.grid4x_changed W _ _ w hW hw, Example.half_delta]
      norm_num
    refine ⟨MPI.generation 4 W (1 / 10000) w, ?_, hres⟩
    simp only [MPI.run, hflag, Bool.false_eq_true, if_false]
  | succ n ih =>
    intro k fuel w hk hfuel hw
    obtain ⟨f, rfl⟩ : ∃ f, fuel = f + 1 := ⟨fuel - 1, by omega⟩
    have hres := Example.grid4x_result W (1 / 10000) _ w hW hw
    rw [Example.half_step] at hres
    have hflag : (MPI.generation 4 W (1 / 10000) w 0).changed = true := by
      rw [Example.grid4x_changed W _ _ w hW hw, Example.half_delta]
      exact Example.delta_large k (by omega)
    obtain ⟨w1, hrun, hw1⟩ := ih (k + 1) f _ (by omega) (by omega) hres
    refine ⟨w1, ?_, hw1⟩
    simp only [MPI.run, hflag, if_true, hrun, Option.map_some']

/-- C13 (scenario 2). On the 4 × 4 grid with edge 1 and interior 0, with precision 0.0001 and
any worker count `W ≥ 1`, the loop of `run` stops (after 14 generations, given fuel for them),
and in the final authoritative grid the four interior cells all equal `1 - 1/16384`, which is
within 0.0001 of 1, and every edge cell is 1. -/
theorem scenario2 (W fuel : Nat) (hW : 1 ≤ W) (hfuel : 14 ≤ fuel) :
    ∃ w1, MPI.run 4 W (1 / 10000) fuel (Example.world Example.grid4) = some (w1, 14) ∧
      ((w1 0).result 5 = 1 - 1 / 16384 ∧ (w1 0).result 6 = (w1 0).result 5 ∧
        (w1 0).result 9 = (w1 0).result 5 ∧ (w1 0).result 10 = (w1 0).result 5) ∧
      |1 - (w1 0).result 5| ≤ 1 / 10000 ∧
      (∀ j, j < 4 * 4 → Spec.IsEdge 4 j → (w1 0).result j = 1) := by
  have h0 : (Example.world Example.grid4 0).result = Example.grid4x (1 - 1 / 2 ^ 0) := by
    have : (1 - 1 / 2 ^ 0 : ℚ) = 0 := by norm_num
    rw [this]; rfl
  obtain ⟨w1, hrun, hw1⟩ := Example.grid4x_run W hW 13 0 fuel _ (by omega) (by omega) h0
  refine ⟨w1, hrun, ?_, ?_, ?_⟩
  · rw [hw1]; norm_num [Example.grid4x]
  · rw [hw1]
    norm_num [Example.grid4x, abs_le]
  · intro j hj he
    rw [hw1]
    have hj16 : j < 16 := hj
    interval_cases j <;> first
      | exact absurd he (by decide)
      | (norm_num [Example.grid4x])

theorem scenario2_witness :
    1 ≤ 3 ∧ 14 ≤ 20 ∧
    (∃ w1, MPI.run 4 3 (1 / 10000) 20 (Example.world Example.grid4) = some (w1, 14) ∧
      ((w1 0).result 5 = 1 - 1 / 16384 ∧ (w1 0).result 6 = (w1 0).result 5 ∧
        (w1 0).result 9 = (w1 0).result 5 ∧ (w1 0).result 10 = (w1 0).result 5) ∧
      |1 - (w1 0).result 5| ≤ 1 / 10000 ∧
      (∀ j, j < 4 * 4 → Spec.IsEdge 4 j → (w1 0).result j = 1)) :=
  ⟨by decide, by decide, scenario2 3 20 (by decide) (by decide)⟩

end Scenario2

section Range

theorem Spec.mean_ge_some (a b c d : ℚ) :
    a ≤ (a + b + c + d) / 4 ∨ b ≤ (a + b + c + d) / 4 ∨ c ≤ (a + b + c + d) / 4 ∨
      d ≤ (a + b + c + d) / 4 := by
  by_contra h
  simp only [not_or, not_le] at h
  obtain ⟨h1, h2, h3, h4⟩ := h
  linarith

theorem Spec.mean_le_some (a b c d : ℚ) :
    (a + b + c + d) / 4 ≤ a ∨ (a + b + c + d) / 4 ≤ b ∨ (a + b + c + d) / 4 ≤ c ∨
      (a + b + c + d) / 4 ≤ d := by
  by_contra h
  simp only [not_or, not_le] at h
  obtain ⟨h1, h2, h3, h4⟩ := h
  linarith

/-- The next value of a cell of the grid lies between two cells of the grid. -/
theorem Spec.stencil_between (N : Nat) (cur : Buf) (i : Nat) (hi : i < N * N) :
    ∃ a b, a < N * N ∧ b < N * N ∧ cur a ≤ Spec.stencil N cur i ∧
      Spec.stencil N cur i ≤ cur b := by
  by_cases he : Spec.IsEdge N i
  · rw [Spec.stencil_edge N cur i he]
    exact ⟨i, i, hi, hi, le_refl _, le_refl _⟩
  · obtain ⟨l1, l2, l3, l4⟩ := Spec.neighbours_lt N i hi he
    have e : Spec.stencil N cur i
        = (cur (i - N) + cur (i + N) + cur (i - 1) + cur (i + 1)) / 4 := by
      simp [Spec.stencil, he]
    rw [e]
    have lo : ∃ a, a < N * N ∧
        cur a ≤ (cur (i - N) + cur (i + N) + cur (i - 1) + cur (i + 1)) / 4 := by
      rcases Spec.mean_ge_some (cur (i - N)) (cur (i + N)) (cur (i - 1)) (cur (i + 1))
        with h | h | h | h
      · exact ⟨_, l1, h⟩
      · exact ⟨_, l2, h⟩
      · exact ⟨_, l3, h⟩
      · exact ⟨_, l4, h⟩
    have hi' : ∃ b, b < N * N ∧
        (cur (i - N) + cur (i + N) + cur (i - 1) + cur (i + 1)) / 4 ≤ cur b := by
      rcases Spec.mean_le_some (cur (i - N)) (cur (i + N)) (cur (i - 1)) (cur (i + 1))
        with h | h | h | h
      · exact ⟨_, l1, h⟩
      · exact ⟨_, l2, h⟩
      · exact ⟨_, l3, h⟩
      · exact ⟨_, l4, h⟩
    obtain ⟨a, ha, hla⟩ := lo
    obtain ⟨b, hb, hlb⟩ := hi'
    exact ⟨a, b, ha, hb, hla, hlb⟩

theorem Spec.stencil_bounds (N : Nat) (cur : Buf) (lo hi : ℚ)
    (hb : ∀ j, j < N * N → lo ≤ cur j ∧ cur j ≤ hi) (i : Nat) (hi' : i < N * N) :
    lo ≤ Spec.stencil N cur i ∧ Spec.stencil N cur i ≤ hi := by
  obtain ⟨a, b, ha, hb', h1, h2⟩ := Spec.stencil_between N cur i hi'
  exact ⟨le_trans (hb a ha).1 h1, le_trans h2 (hb b hb').2⟩

/-- Being cell by cell between two cells of another grid is transitive. -/
theorem Spec.between_trans (N : Nat) (g0 g1 g2 : Buf)
    (h01 : ∀ j, j < N * N → ∃ a b, a < N * N ∧ b < N * N ∧ g0 a ≤ g1 j ∧ g1 j ≤ g0 b)
    (h12 : ∀ j, j < N * N → ∃ a b, a < N * N ∧ b < N * N ∧ g1 a ≤ g2 j ∧ g2 j ≤ g1 b)
    (j : Nat) (hj : j < N * N) :
    ∃ a b, a < N * N ∧ b < N * N ∧ g0 a ≤ g2 j ∧ g2 j ≤ g0 b := by
  obtain ⟨a, b, ha, hb, h1, h2⟩ := h12 j hj
  obtain ⟨a0, _, ha0, _, h3, _⟩ := h01 a ha
  obtain ⟨_, b0, _, hb0, _, h4⟩ := h01 b hb
  exact ⟨a0, b0, ha0, hb0, le_trans h3 h1, le_trans h2 h4⟩

theorem MPI.generation_between (N W : Nat) (prec : ℚ) (hW : 1 ≤ W) (w : Nat → MPI.Proc)
    (j : Nat) (hj : j < N * N) :
    ∃ a b, a < N * N ∧ b < N * N ∧ (w 0).result a ≤ (MPI.generation N W prec w 0).result j ∧
      (MPI.generation N W prec w 0).result j ≤ (w 0).result b := by
  rw [MPI.generation_result N W prec w hW, if_pos hj]
  exact Spec.stencil_between N _ j hj

theorem POSIX.solveGeneration_between (N W : Nat) (prec : ℚ) (hW : 1 ≤ W) (fresh cur : Buf)
    (j : Nat) (hj : j < N * N) :
    ∃ a b, a < N * N ∧ b < N * N ∧ cur a ≤ (POSIX.generation N W prec fresh cur).1 j ∧
      (POSIX.generation N W prec fresh cur).1 j ≤ cur b := by
  rw [POSIX.solveGeneration_result N W prec _ _ hW, if_pos hj]
  exact Spec.stencil_between N _ j hj

theorem MPI.generations_between (N W : Nat) (prec : ℚ) (hW : 1 ≤ W) :
    ∀ fuel (w : Nat → MPI.Proc), ∀ w1 ∈ MPI.generations N W prec fuel w,
      ∀ j, j < N * N → ∃ a b, a < N * N ∧ b < N * N ∧
        (w 0).result a ≤ (w1 0).result j ∧ (w1 0).result j ≤ (w 0).result b := by
  intro fuel
  induction fuel with
  | zero => intro w w1 hm; simp [MPI.generations] at hm
  | succ n ih =>
    intro w w1 hm
    simp only [MPI.generations, List.mem_cons] at hm
    rcases hm with hm | hm
    · rw [hm]; exact MPI.generation_between N W prec hW w
    · split_ifs at hm
      · exact Spec.between_trans N _ _ _ (MPI.generation_between N W prec hW w)
          (ih _ w1 hm)
      · simp at hm

theorem POSIX.solveGenerations_between (N W : Nat) (prec : ℚ) (hW : 1 ≤ W) :
    ∀ fuel (alloc : Nat → Buf) (cur : Buf), ∀ out ∈ POSIX.generations N W prec fuel alloc cur,
      ∀ j, j < N * N → ∃ a b, a < N * N ∧ b < N * N ∧ cur a ≤ out.1 j ∧ out.1 j ≤ cur b := by
  intro fuel
  induction fuel with
  | zero => intro alloc cur out hm; simp [POSIX.generations] at hm
  | succ n ih =>
    intro alloc cur out hm
    simp only [POSIX.generations, List.mem_cons] at hm
    rcases hm with hm | hm
    · rw [hm]; exact POSIX.solveGeneration_between N W prec hW _ cur
    · split_ifs at hm
      · exact Spec.between_trans N _ _ _ (POSIX.solveGeneration_between N W prec hW _ cur)
          (ih _ _ out hm)
      · simp at hm

end Range

section Scenario3

/-- C14 (scenario 3). For every worker count `W ≥ 1`, every bound `B` and every precision
`> B`: on any grid whose cells all lie in `[0, B]`, the first generation ends with `changed`
false and the loop stops after exactly one generation, in `run` and in `solve`. -/
theorem scenario3 (N W : Nat) (B precision : ℚ) (hW : 1 ≤ W) (hprec : B < precision) :
    (∀ (w : Nat → MPI.Proc) (fuel : Nat),
      (∀ j, j < N * N → 0 ≤ (w 0).result j ∧ (w 0).result j ≤ B) → 1 ≤ fuel →
      (MPI.generation N W precision w 0).changed = false ∧
      MPI.run N W precision fuel w = some (MPI.generation N W precision w, 1)) ∧
    (∀ (alloc : Nat → Buf) (startArray : Buf) (fuel : Nat),
      (∀ j, j < N * N → 0 ≤ startArray j ∧ startArray j ≤ B) → 1 ≤ fuel →
      (POSIX.generation N W precision (alloc 0) startArray).2 = false ∧
      POSIX.solve N W precision fuel alloc startArray
        = some ((POSIX.generation N W precision (alloc 0) startArray).1, 1)) := by
  constructor
  · intro w fuel hb hfuel
    have hflag : (MPI.generation N W precision w 0).changed = false := by
      rw [Bool.eq_false_iff, Ne, MPI.generation_changed N W precision w hW 0 (by omega)]
      rintro ⟨j, hj, _, hgt⟩
      obtain ⟨s1, s2⟩ := Spec.stencil_bounds N _ 0 B hb j hj
      obtain ⟨c1, c2⟩ := hb j hj
      have : |Spec.stencil N (w 0).result j - (w 0).result j| ≤ B := by
        rw [abs_le]; constructor <;> linarith
      linarith
    refine ⟨hflag, ?_⟩
    obtain ⟨f, rfl⟩ : ∃ f, fuel = f + 1 := ⟨fuel - 1, by omega⟩
    simp only [MPI.run, hflag, Bool.false_eq_true, if_false]
  · intro alloc cur fuel hb hfuel
    have hflag : (POSIX.generation N W precision (alloc 0) cur).2 = false := by
      rw [Bool.eq_false_iff, Ne, POSIX.solveGeneration_changed N W precision _ _ hW]
      rintro ⟨j, hj, _, hge⟩
      obtain ⟨s1, s2⟩ := Spec.stencil_bounds N _ 0 B hb j hj
      obtain ⟨c1, c2⟩ := hb j hj
      linarith
    refine ⟨hflag, ?_⟩
    obtain ⟨f, rfl⟩ : ∃ f, fuel = f + 1 := ⟨fuel - 1, by omega⟩
    simp only [POSIX.solve, hflag, Bool.false_eq_true, if_false]

theorem scenario3_witness :
    1 ≤ 2 ∧ (20 : ℚ) < 1000 ∧
    ((∀ (w : Nat → MPI.Proc) (fuel : Nat),
      (∀ j, j < 4 * 4 → 0 ≤ (w 0).result j ∧ (w 0).result j ≤ 20) → 1 ≤ fuel →
      (MPI.generation 4 2 1000 w 0).changed = false ∧
      MPI.run 4 2 1000 fuel w = some (MPI.generation 4 2 1000 w, 1)) ∧
    (∀ (alloc : Nat → Buf) (startArray : Buf) (fuel : Nat),
      (∀ j, j < 4 * 4 → 0 ≤ startArray j ∧ startArray j ≤ 20) → 1 ≤ fuel →
      (POSIX.generation 4 2 1000 (alloc 0) startArray).2 = false ∧
      POSIX.solve 4 2 1000 fuel alloc startArray
        = some ((POSIX.generation 4 2 1000 (alloc 0) startArray).1, 1))) :=
  ⟨by decide, by norm_num, scenario3 4 2 20 1000 (by decide) (by norm_num)⟩

end Scenario3

section EdgeTests

/-- The loop body of `run` branches on `MPI.onEdge`. -/
theorem MPI.kernelStep_onEdge (N : Nat) (prec : ℚ) (cur : Buf) (startPos : Nat)
    (st : Buf × Bool) (k : Nat) :
    (MPI.onEdge N (startPos + k) = true →
      MPI.kernelStep N prec cur startPos st k
        = (Function.update st.1 k (cur (startPos + k)), st.2)) ∧
    (MPI.onEdge N (startPos + k) = false →
      (MPI.kernelStep N prec cur startPos st k).1
        = Function.update st.1 k
          ((MPI.accessUnwrappedArray cur N ((startPos + k) / N - 1) ((startPos + k) % N) +
            MPI.accessUnwrappedArray cur N ((startPos + k) / N + 1) ((startPos + k) % N) +
            MPI.accessUnwrappedArray cur N ((startPos + k) / N) ((startPos + k) % N - 1) +
            MPI.accessUnwrappedArray cur N ((startPos + k) / N) ((startPos + k) % N + 1))
            / 4)) := by
  constructor
  · intro h
    simp only [MPI.onEdge] at h
    simp only [MPI.kernelStep, h, if_true]
  · intro h
    simp only [MPI.onEdge] at h
    simp only [MPI.kernelStep, h, Bool.false_eq_true, if_false]

/-- The loop body of `threadMain` branches on `POSIX.edge`. -/
theorem POSIX.threadStep_edge (w h : Nat) (prec : ℚ) (cur : Buf) (st : Buf × Bool) (i : Nat) :
    (POSIX.edge w h i = true →
      POSIX.threadStep w h prec cur st i = (Function.update st.1 i (cur i), st.2)) ∧
    (POSIX.edge w h i = false →
      (POSIX.threadStep w h prec cur st i).1
        = Function.update st.1 i
          ((cur (i - w) + cur (i + w) + cur (i - 1) + cur (i + 1)) / 4)) := by
  constructor
  · intro he
    simp only [POSIX.edge] at he
    simp only [POSIX.threadStep, he, if_true]
  · intro he
    simp only [POSIX.edge] at he
    simp only [POSIX.threadStep, he, Bool.false_eq_true, if_false]

theorem MPI.onEdge_eq_true_iff (N i : Nat) : MPI.onEdge N i = true ↔ Spec.IsEdge N i :=
  MPI.onEdge_iff N i

theorem POSIX.edge_eq_true_iff (N i : Nat) (hi : i < N * N) :
    POSIX.edge N N i = true ↔ Spec.IsEdge N i :=
  POSIX.edge_iff N i hi

/-- C18 (edge predicates agree). For every cell `i < N * N`, the edge test of `threadMain`,
`i < N || i >= N*(N-1) || i % N == 0 || i % N == N-1`, holds exactly when the edge test of
`run`, `i/N == 0 || i/N == N-1 || i % N == 0 || i % N == N-1`, holds. -/
theorem edge_predicates_agree (N i : Nat) (hi : i < N * N) :
    (POSIX.edge N N i = true ↔
      (i < N ∨ i ≥ N * (N - 1) ∨ i % N = 0 ∨ i % N = N - 1)) ∧
    (MPI.onEdge N i = true ↔
      (i / N = 0 ∨ i / N = N - 1 ∨ i % N = 0 ∨ i % N = N - 1)) ∧
    (POSIX.edge N N i = true ↔ MPI.onEdge N i = true) ∧
    POSIX.edge N N i = MPI.onEdge N i := by
  have h3 : POSIX.edge N N i = true ↔ MPI.onEdge N i = true := by
    rw [POSIX.edge_eq_true_iff N i hi, MPI.onEdge_eq_true_iff]
  refine ⟨?_, ?_, h3, ?_⟩
  · simp [POSIX.edge, or_assoc]
  · simp [MPI.onEdge, or_assoc]
  · rw [Bool.eq_iff_iff]; exact h3

theorem edge_predicates_agree_witness :
    7 < 4 * 4 ∧
    ((POSIX.edge 4 4 7 = true ↔
      (7 < 4 ∨ 7 ≥ 4 * (4 - 1) ∨ 7 % 4 = 0 ∨ 7 % 4 = 4 - 1)) ∧
    (MPI.onEdge 4 7 = true ↔
      (7 / 4 = 0 ∨ 7 / 4 = 4 - 1 ∨ 7 % 4 = 0 ∨ 7 % 4 = 4 - 1)) ∧
    (POSIX.edge 4 4 7 = true ↔ MPI.onEdge 4 7 = true) ∧
    POSIX.edge 4 4 7 = MPI.onEdge 4 7) :=
  ⟨by decide, edge_predicates_agree 4 7 (by decide)⟩

/-- C19 (in-bounds neighbour reads). For every cell `i < N * N` that the edge test of `run` or
of `threadMain` classifies as non-edge: row and column are at least 1, so `row - 1`, `col - 1`,
`i - N` and `i - 1` do not go below 0; the cells `(row-1, col)`, `(row+1, col)`, `(row, col-1)`,
`(row, col+1)` read by `run` are the indices `i - N`, `i + N`, `i - 1`, `i + 1` read by
`threadMain`; all four lie below `N * N`; and `i - 1`, `i + 1` lie in the row of `i`. For
`N ≤ 2` both tests classify every cell as an edge, so no neighbour is read. -/
theorem neighbour_reads_in_bounds (N : Nat) :
    (∀ i, i < N * N → (MPI.onEdge N i = false ∨ POSIX.edge N N i = false) →
      (1 ≤ i / N ∧ 1 ≤ i % N ∧ N ≤ i ∧ 1 ≤ i) ∧
      ((i / N - 1) * N + i % N = i - N ∧ (i / N + 1) * N + i % N = i + N ∧
        i / N * N + (i % N - 1) = i - 1 ∧ i / N * N + (i % N + 1) = i + 1) ∧
      (i - N < N * N ∧ i + N < N * N ∧ i - 1 < N * N ∧ i + 1 < N * N) ∧
      ((i - 1) / N = i / N ∧ (i + 1) / N = i / N)) ∧
    (N ≤ 2 → ∀ i, i < N * N → MPI.onEdge N i = true ∧ POSIX.edge N N i = true) := by
  constructor
  · intro i hi hne
    have he : ¬ Spec.IsEdge N i := by
      rcases hne with h | h
      · rw [← MPI.onEdge_eq_true_iff, h]; simp
      · rw [← POSIX.edge_eq_true_iff N i hi, h]; simp
    have hfirst : 1 ≤ i / N ∧ 1 ≤ i % N ∧ N ≤ i ∧ 1 ≤ i := by
      have hrc := Spec.row_col N i
      have he' := he
      simp only [Spec.IsEdge, not_or] at he'
      obtain ⟨e1, _, e3, _⟩ := he'
      have hge : N ≤ i / N * N := Nat.le_mul_of_pos_left N (Nat.pos_of_ne_zero e1)
      generalize i / N * N = rn at hrc hge
      generalize i / N = r at e1
      generalize i % N = c at *
      omega
    obtain ⟨_, _, q3, q4⟩ := Spec.neighbour_rows N i he
    exact ⟨hfirst, Spec.neighbours N i he, Spec.neighbours_lt N i hi he, q3, q4⟩
  · intro hN i hi
    have hboth : Spec.IsEdge N i := by
      interval_cases N
      · simp at hi
      · have : i = 0 := by omega
        subst this; decide
      · have hi4 : i < 4 := hi
        interval_cases i <;> decide
    exact ⟨(MPI.onEdge_eq_true_iff N i).2 hboth, (POSIX.edge_eq_true_iff N i hi).2 hboth⟩

end EdgeTests

section PartitionIdentity

/-- C16 (identical partition in both realizations). For every `N`, every thread count `W` and
every index `i`, the `(startPos, elementsToCompute)` that `solve` gives thread `i` is the
`(startPositions[i], chunkSizes[i])` that `distributeWork` gives processor `i`; the two arrays
are equal as a whole. -/
theorem identical_partition (N W i : Nat) :
    POSIX.startPos N W i = MPI.startPosition N W i ∧
    POSIX.elementsToCompute N W i = MPI.chunkSize N W i ∧
    (POSIX.threadArgs N W).map Prod.snd = (MPI.distributeWork N W).2 ∧
    (POSIX.threadArgs N W).map Prod.fst = (MPI.distributeWork N W).1 := by
  refine ⟨POSIX.startPos_eq N W i, POSIX.elementsToCompute_eq N W i, ?_, ?_⟩
  · simp [POSIX.threadArgs, POSIX.threadArgsLoop_eq, MPI.distributeWork]
  · simp [POSIX.threadArgs, POSIX.threadArgsLoop_eq, MPI.distributeWork]

end PartitionIdentity

section RangeClaim

/-- C20 (range preservation). For every worker count `W ≥ 1`, every cell of the grid that one
generation writes lies between two cells of CURRENT, hence between the minimum and the maximum
of CURRENT; and every cell of the grid after every generation the loop performs lies between two
cells of the initial grid. Both for `run` and for `solve`. -/
theorem range_preservation (N W : Nat) (precision : ℚ) (hW : 1 ≤ W) :
    (∀ (w : Nat → MPI.Proc) (j : Nat), j < N * N →
      ∃ a b, a < N * N ∧ b < N * N ∧
        (w 0).result a ≤ (MPI.generation N W precision w 0).result j ∧
        (MPI.generation N W precision w 0).result j ≤ (w 0).result b) ∧
    (∀ (fresh startArray : Buf) (j : Nat), j < N * N →
      ∃ a b, a < N * N ∧ b < N * N ∧
        startArray a ≤ (POSIX.generation N W precision fresh startArray).1 j ∧
        (POSIX.generation N W precision fresh startArray).1 j ≤ startArray b) ∧
    (∀ fuel (w : Nat → MPI.Proc), ∀ w1 ∈ MPI.generations N W precision fuel w,
      ∀ j, j < N * N → ∃ a b, a < N * N ∧ b < N * N ∧
        (w 0).result a ≤ (w1 0).result j ∧ (w1 0).result j ≤ (w 0).result b) ∧
    (∀ fuel (alloc : Nat → Buf) (startArray : Buf),
      ∀ out ∈ POSIX.generations N W precision fuel alloc startArray,
      ∀ j, j < N * N → ∃ a b, a < N * N ∧ b < N * N ∧
        startArray a ≤ out.1 j ∧ out.1 j ≤ startArray b) :=
  ⟨fun w j hj => MPI.generation_between N W precision hW w j hj,
    fun fresh cur j hj => POSIX.solveGeneration_between N W precision hW fresh cur j hj,
    MPI.generations_between N W precision hW,
    POSIX.solveGenerations_between N W precision hW⟩

theorem range_preservation_witness :
    1 ≤ 3 ∧
    ((∀ (w : Nat → MPI.Proc) (j : Nat), j < 4 * 4 →
      ∃ a b, a < 4 * 4 ∧ b < 4 * 4 ∧
        (w 0).result a ≤ (MPI.generation 4 3 (1 / 2) w 0).result j ∧
        (MPI.generation 4 3 (1 / 2) w 0).result j ≤ (w 0).result b) ∧
    (∀ (fresh startArray : Buf) (j : Nat), j < 4 * 4 →
      ∃ a b, a < 4 * 4 ∧ b < 4 * 4 ∧
        startArray a ≤ (POSIX.generation 4 3 (1 / 2) fresh startArray).1 j ∧
        (POSIX.generation 4 3 (1 / 2) fresh startArray).1 j ≤ startArray b) ∧
    (∀ fuel (w : Nat → MPI.Proc), ∀ w1 ∈ MPI.generations 4 3 (1 / 2) fuel w,
      ∀ j, j < 4 * 4 → ∃ a b, a < 4 * 4 ∧ b < 4 * 4 ∧
        (w 0).result a ≤ (w1 0).result j ∧ (w1 0).result j ≤ (w 0).result b) ∧
    (∀ fuel (alloc : Nat → Buf) (startArray : Buf),
      ∀ out ∈ POSIX.generations 4 3 (1 / 2) fuel alloc startArray,
      ∀ j, j < 4 * 4 → ∃ a b, a < 4 * 4 ∧ b < 4 * 4 ∧
        startArray a ≤ out.1 j ∧ out.1 j ≤ startArray b)) :=
  ⟨by decide, range_preservation 4 3 (1 / 2) (by decide)⟩

end RangeClaim

section Slices

theorem POSIX.threadStepMem_eq (w h : Nat) (prec : ℚ) (m : POSIX.Mem) (i : Nat) :
    POSIX.threadStepMem w h prec m i
      = { startArray := m.startArray
          resultArray := (POSIX.threadStep w h prec m.startArray (m.resultArray, m.changed) i).1
          changed := (POSIX.threadStep w h prec m.startArray (m.resultArray, m.changed) i).2 } := by
  by_cases he : (decide (i < w) || decide (i ≥ w * (h - 1)) || i % w == 0 ||
      i % w == w - 1) = true
  · simp only [POSIX.threadStepMem, POSIX.threadStep, he, if_true]
  · simp only [POSIX.threadStepMem, POSIX.threadStep, he, Bool.false_eq_true, if_false]

theorem POSIX.foldl_threadStepMem (w h : Nat) (prec : ℚ) (s : Nat) :
    ∀ (l : List Nat) (m : POSIX.Mem),
      l.foldl (fun st k => POSIX.threadStepMem w h prec st (s + k)) m
        = { startArray := m.startArray
            resultArray := (l.foldl (fun st k => POSIX.threadStep w h prec m.startArray st (s + k))
              (m.resultArray, m.changed)).1
            changed := (l.foldl (fun st k => POSIX.threadStep w h prec m.startArray st (s + k))
              (m.resultArray, m.changed)).2 } := by
  intro l
  induction l with
  | nil => intro m; rfl
  | cons a l ih =>
    intro m
    rw [List.foldl_cons, ih, POSIX.threadStepMem_eq]
    rfl

/-- The loop of a thread on the shared memory never changes CURRENT, and on NEXT and the flag
it is the loop `POSIX.threadPass`. -/
theorem POSIX.threadPassMem_eq (w h : Nat) (prec : ℚ) (s n : Nat) (m : POSIX.Mem) :
    POSIX.threadPassMem w h prec s n m
      = { startArray := m.startArray
          resultArray := (POSIX.threadPass w h prec m.startArray s n
            (m.resultArray, m.changed)).1
          changed := (POSIX.threadPass w h prec m.startArray s n
            (m.resultArray, m.changed)).2 } := by
  unfold POSIX.threadPassMem POSIX.threadPass
  exact POSIX.foldl_threadStepMem w h prec s _ m

/-- C15 (disjoint slices of NEXT, shared memory). For every thread count `W ≥ 1`, the loop of
thread `t` of `solve`, run on any shared memory: leaves every cell of `startArray` (CURRENT) as
it was; leaves every cell of `resultArray` (NEXT) outside its range
`[startPos, startPos + elementsToCompute)` as it was; assigns every cell of its range, whatever
the buffer held before, the value the kernel computes from CURRENT; and is on NEXT and the flag
the loop `POSIX.threadPass` of which a generation is made. The ranges of two threads share no
index, and every index below `N * N` lies in the range of exactly one thread. -/
theorem disjoint_slices (N W : Nat) (hW : 1 ≤ W) :
    (∀ t, t < W → ∀ (precision : ℚ) (m : POSIX.Mem),
      (POSIX.threadPassMem N N precision (POSIX.startPos N W t)
        (POSIX.elementsToCompute N W t) m).startArray = m.startArray ∧
      (∀ j, ¬ (POSIX.startPos N W t ≤ j ∧
          j < POSIX.startPos N W t + POSIX.elementsToCompute N W t) →
        (POSIX.threadPassMem N N precision (POSIX.startPos N W t)
          (POSIX.elementsToCompute N W t) m).resultArray j = m.resultArray j) ∧
      (∀ j, POSIX.startPos N W t ≤ j →
          j < POSIX.startPos N W t + POSIX.elementsToCompute N W t →
        (POSIX.threadPassMem N N precision (POSIX.startPos N W t)
          (POSIX.elementsToCompute N W t) m).resultArray j = Spec.stencil N m.startArray j) ∧
      ((POSIX.threadPassMem N N precision (POSIX.startPos N W t)
          (POSIX.elementsToCompute N W t) m).resultArray,
        (POSIX.threadPassMem N N precision (POSIX.startPos N W t)
          (POSIX.elementsToCompute N W t) m).changed)
        = POSIX.threadPass N N precision m.startArray (POSIX.startPos N W t)
            (POSIX.elementsToCompute N W t) (m.resultArray, m.changed)) ∧
    (∀ t u, t < W → u < W → t ≠ u → ∀ j,
      ¬ ((POSIX.startPos N W t ≤ j ∧
          j < POSIX.startPos N W t + POSIX.elementsToCompute N W t) ∧
        (POSIX.startPos N W u ≤ j ∧
          j < POSIX.startPos N W u + POSIX.elementsToCompute N W u))) ∧
    (∀ i, i < N * N →
      ∃ t, (t < W ∧ POSIX.startPos N W t ≤ i ∧
          i < POSIX.startPos N W t + POSIX.elementsToCompute N W t) ∧
        ∀ u, (u < W ∧ POSIX.startPos N W u ≤ i ∧
          i < POSIX.startPos N W u + POSIX.elementsToCompute N W u) → u = t) := by
  have hs : POSIX.startPos N W = MPI.startPosition N W := funext (POSIX.startPos_eq N W)
  have hc : POSIX.elementsToCompute N W = MPI.chunkSize N W :=
    funext (POSIX.elementsToCompute_eq N W)
  have hdisj : ∀ t u, t < W → u < W → t ≠ u → ∀ j,
      ¬ ((MPI.startPosition N W t ≤ j ∧ j < MPI.startPosition N W t + MPI.chunkSize N W t) ∧
        (MPI.startPosition N W u ≤ j ∧
          j < MPI.startPosition N W u + MPI.chunkSize N W u)) := by
    intro t u ht hu htu j hj
    rcases Nat.lt_or_gt_of_ne htu with h | h
    · have := MPI.startPosition_mono N W u t h hu; omega
    · have := MPI.startPosition_mono N W t u h ht; omega
  rw [hs, hc]
  refine ⟨?_, hdisj, ?_⟩
  · intro t ht precision m
    have hend := MPI.chunk_end_le N W t ht
    rw [POSIX.threadPassMem_eq]
    refine ⟨rfl, ?_, ?_, rfl⟩
    · intro j hj
      show (POSIX.threadPass N N precision m.startArray (MPI.startPosition N W t)
        (MPI.chunkSize N W t) (m.resultArray, m.changed)).1 j = m.resultArray j
      rw [POSIX.threadPass_eq N precision m.startArray _ _ _ hend]
      simp only [hj, if_false]
    · intro j h0 h1
      show (POSIX.threadPass N N precision m.startArray (MPI.startPosition N W t)
        (MPI.chunkSize N W t) (m.resultArray, m.changed)).1 j = Spec.stencil N m.startArray j
      rw [POSIX.threadPass_eq N precision m.startArray _ _ _ hend]
      simp only [h0, h1, and_self, if_true]
  · intro i hi
    obtain ⟨p, hp, h0, h1⟩ := MPI.chunk_cover N W hW i hi
    refine ⟨p, ⟨hp, h0, h1⟩, ?_⟩
    rintro u ⟨hu, hu0, hu1⟩
    by_contra hne
    exact hdisj u p hu hp hne i ⟨⟨hu0, hu1⟩, ⟨h0, h1⟩⟩

theorem disjoint_slices_witness :
    1 ≤ 3 ∧
    ((∀ t, t < 3 → ∀ (precision : ℚ) (m : POSIX.Mem),
      (POSIX.threadPassMem 4 4 precision (POSIX.startPos 4 3 t)
        (POSIX.elementsToCompute 4 3 t) m).startArray = m.startArray ∧
      (∀ j, ¬ (POSIX.startPos 4 3 t ≤ j ∧
          j < POSIX.startPos 4 3 t + POSIX.elementsToCompute 4 3 t) →
        (POSIX.threadPassMem 4 4 precision (POSIX.startPos 4 3 t)
          (POSIX.elementsToCompute 4 3 t) m).resultArray j = m.resultArray j) ∧
      (∀ j, POSIX.startPos 4 3 t ≤ j →
          j < POSIX.startPos 4 3 t + POSIX.elementsToCompute 4 3 t →
        (POSIX.threadPassMem 4 4 precision (POSIX.startPos 4 3 t)
          (POSIX.elementsToCompute 4 3 t) m).resultArray j = Spec.stencil 4 m.startArray j) ∧
      ((POSIX.threadPassMem 4 4 precision (POSIX.startPos 4 3 t)
          (POSIX.elementsToCompute 4 3 t) m).resultArray,
        (POSIX.threadPassMem 4 4 precision (POSIX.startPos 4 3 t)
          (POSIX.elementsToCompute 4 3 t) m).changed)
        = POSIX.threadPass 4 4 precision m.startArray (POSIX.startPos 4 3 t)
            (POSIX.elementsToCompute 4 3 t) (m.resultArray, m.changed)) ∧
    (∀ t u, t < 3 → u < 3 → t ≠ u → ∀ j,
      ¬ ((POSIX.startPos 4 3 t ≤ j ∧
          j < POSIX.startPos 4 3 t + POSIX.elementsToCompute 4 3 t) ∧
        (POSIX.startPos 4 3 u ≤ j ∧
          j < POSIX.startPos 4 3 u + POSIX.elementsToCompute 4 3 u))) ∧
    (∀ i, i < 4 * 4 →
      ∃ t, (t < 3 ∧ POSIX.startPos 4 3 t ≤ i ∧
          i < POSIX.startPos 4 3 t + POSIX.elementsToCompute 4 3 t) ∧
        ∀ u, (u < 3 ∧ POSIX.startPos 4 3 u ≤ i ∧
          i < POSIX.startPos 4 3 u + POSIX.elementsToCompute 4 3 u) → u = t)) :=
  ⟨by decide, disjoint_slices 4 3 (by decide)⟩

end Slices

section FixedPointAmended

end FixedPointAmended
